import Mathlib

/-!
Verification of the ELFRemove core (`elfremove/elfremove.py`) against its
natural-language specification.  The Python code is shallowly embedded:
pyelftools entry objects become Lean structures, the mutable file stream
becomes an explicit byte list, dict objects become association lists with
first-match lookup (so consing a binding models a dict overwrite), and code
that can raise an exception returns `Option`/`Except`.  All definitions are
translated from the source; line numbers in comments refer to
`elfremove/elfremove.py`.
-/

namespace ElfRemove

/-- A `.dynsym`/`.symtab` entry as the collector reads it through pyelftools:
the resolved name, `st_name`, `st_value`, `st_size` and the decoded
`st_info.type` string (e.g. `"STT_FUNC"`). -/
structure SymEntry where
  name : String
  st_name : Nat
  st_value : Nat
  st_size : Nat
  st_info_type : String
  deriving Repr, DecidableEq

/-- `SymbolWrapper` (elfremove.py lines 48-56): captured identity of a symbol
to delete. -/
structure SymbolWrapper where
  name : String
  index : Nat
  name_offset : Nat
  value : Nat
  size : Nat
  sec_version : Nat
  deriving Repr, DecidableEq

/-- The part of a `SectionWrapper` around a symbol table that the collector
and editor use: the parsed entries, the section-header index (`-1` when the
section was synthesized from the dynamic segment) and the monotonic version
counter. -/
structure SymtabSection where
  symbols : List SymEntry
  index : Int
  version : Nat
  deriving Repr, DecidableEq

/-- `self._blacklist = ["_init", "_fini"]` (line 83). -/
def blacklist : List String := ["_init", "_fini"]

/-- Loop body of `collect_symbols_by_name` (lines 1237-1253): `entry_cnt`
starts at `-1` and is incremented at the top of the loop, so the first entry
is examined with counter `k = 0`. -/
def collectByNameLoop (ver : Nat) (symbol_list : List String) (complement : Bool) :
    Nat → List SymEntry → List SymbolWrapper
  | _, [] => []
  | k, sym :: rest =>
    if sym.name ∈ blacklist then
      collectByNameLoop ver symbol_list complement (k + 1) rest
    else if (complement = true ∧ sym.name ∉ symbol_list) ∨
        (complement = false ∧ sym.name ∈ symbol_list) then
      if sym.st_info_type ≠ "STT_FUNC" then
        collectByNameLoop ver symbol_list complement (k + 1) rest
      else
        ⟨sym.name, k, sym.st_name, sym.st_value, sym.st_size, ver⟩ ::
          collectByNameLoop ver symbol_list complement (k + 1) rest
    else
      collectByNameLoop ver symbol_list complement (k + 1) rest

/-- `collect_symbols_by_name` (lines 1229-1254). -/
def collect_symbols_by_name (sec : SymtabSection) (symbol_list : List String)
    (complement : Bool) : List SymbolWrapper :=
  collectByNameLoop sec.version symbol_list complement 0 sec.symbols

/-- Loop body of `collect_symbols_by_address` (lines 1263-1280). -/
def collectByAddrLoop (ver : Nat) (address_list : List Nat) (complement : Bool) :
    Nat → List SymEntry → List SymbolWrapper
  | _, [] => []
  | k, sym :: rest =>
    if sym.name ∈ blacklist then
      collectByAddrLoop ver address_list complement (k + 1) rest
    else if (complement = true ∧ sym.st_value ∉ address_list) ∨
        (complement = false ∧ sym.st_value ∈ address_list) then
      if sym.st_info_type ≠ "STT_FUNC" then
        collectByAddrLoop ver address_list complement (k + 1) rest
      else
        ⟨sym.name, k, sym.st_name, sym.st_value, sym.st_size, ver⟩ ::
          collectByAddrLoop ver address_list complement (k + 1) rest
    else
      collectByAddrLoop ver address_list complement (k + 1) rest

/-- `collect_symbols_by_address` (lines 1256-1280). -/
def collect_symbols_by_address (sec : SymtabSection) (address_list : List Nat)
    (complement : Bool) : List SymbolWrapper :=
  collectByAddrLoop sec.version address_list complement 0 sec.symbols

/-- The selection predicate the spec describes for the collector: a function
type entry, not blacklisted, matching the input set (or its complement). -/
def collectsName (symbol_list : List String) (complement : Bool) (sym : SymEntry) : Prop :=
  sym.name ∉ blacklist ∧
    ((complement = true ∧ sym.name ∉ symbol_list) ∨
      (complement = false ∧ sym.name ∈ symbol_list)) ∧
    sym.st_info_type = "STT_FUNC"

def collectsAddr (address_list : List Nat) (complement : Bool) (sym : SymEntry) : Prop :=
  sym.name ∉ blacklist ∧
    ((complement = true ∧ sym.st_value ∉ address_list) ∨
      (complement = false ∧ sym.st_value ∈ address_list)) ∧
    sym.st_info_type = "STT_FUNC"

instance (symbol_list : List String) (complement : Bool) (sym : SymEntry) :
    Decidable (collectsName symbol_list complement sym) :=
  inferInstanceAs (Decidable (_ ∧ _ ∧ _))

instance (address_list : List Nat) (complement : Bool) (sym : SymEntry) :
    Decidable (collectsAddr address_list complement sym) :=
  inferInstanceAs (Decidable (_ ∧ _ ∧ _))

/-- The wrapper built for entry `sym` at table position `k` under section
version `ver`. -/
def mkWrapper (ver k : Nat) (sym : SymEntry) : SymbolWrapper :=
  ⟨sym.name, k, sym.st_name, sym.st_value, sym.st_size, ver⟩

theorem collectByNameLoop_eq (ver : Nat) (l : List String) (c : Bool) :
    ∀ (syms : List SymEntry) (k : Nat),
      collectByNameLoop ver l c k syms =
        (syms.enumFrom k).filterMap
          (fun p => if collectsName l c p.2 then some (mkWrapper ver p.1 p.2) else none) := by
  intro syms
  induction syms with
  | nil => intro k; rfl
  | cons s rest ih =>
    intro k
    rw [List.enumFrom_cons, List.filterMap_cons]
    by_cases hb : s.name ∈ blacklist
    · have hns : ¬ collectsName l c s := by
        intro h; exact h.1 hb
      simp only [collectByNameLoop, if_pos hb, if_neg hns, ih]
    · by_cases hm : (c = true ∧ s.name ∉ l) ∨ (c = false ∧ s.name ∈ l)
      · by_cases ht : s.st_info_type = "STT_FUNC"
        · have hcs : collectsName l c s := ⟨hb, hm, ht⟩
          have ht' : ¬ s.st_info_type ≠ "STT_FUNC" := by simpa using ht
          simp only [collectByNameLoop, if_neg hb, if_pos hm, if_neg ht', if_pos hcs, ih]
          rfl
        · have hns : ¬ collectsName l c s := by
            intro h; exact ht h.2.2
          have ht' : s.st_info_type ≠ "STT_FUNC" := ht
          simp only [collectByNameLoop, if_neg hb, if_pos hm, if_pos ht', if_neg hns, ih]
      · have hns : ¬ collectsName l c s := by
          intro h; exact hm h.2.1
        simp only [collectByNameLoop, if_neg hb, if_neg hm, if_neg hns, ih]

theorem collectByAddrLoop_eq (ver : Nat) (l : List Nat) (c : Bool) :
    ∀ (syms : List SymEntry) (k : Nat),
      collectByAddrLoop ver l c k syms =
        (syms.enumFrom k).filterMap
          (fun p => if collectsAddr l c p.2 then some (mkWrapper ver p.1 p.2) else none) := by
  intro syms
  induction syms with
  | nil => intro k; rfl
  | cons s rest ih =>
    intro k
    rw [List.enumFrom_cons, List.filterMap_cons]
    by_cases hb : s.name ∈ blacklist
    · have hns : ¬ collectsAddr l c s := by
        intro h; exact h.1 hb
      simp only [collectByAddrLoop, if_pos hb, if_neg hns, ih]
    · by_cases hm : (c = true ∧ s.st_value ∉ l) ∨ (c = false ∧ s.st_value ∈ l)
      · by_cases ht : s.st_info_type = "STT_FUNC"
        · have hcs : collectsAddr l c s := ⟨hb, hm, ht⟩
          have ht' : ¬ s.st_info_type ≠ "STT_FUNC" := by simpa using ht
          simp only [collectByAddrLoop, if_neg hb, if_pos hm, if_neg ht', if_pos hcs, ih]
          rfl
        · have hns : ¬ collectsAddr l c s := by
            intro h; exact ht h.2.2
          have ht' : s.st_info_type ≠ "STT_FUNC" := ht
          simp only [collectByAddrLoop, if_neg hb, if_pos hm, if_pos ht', if_neg hns, ih]
      · have hns : ¬ collectsAddr l c s := by
          intro h; exact hm h.2.1
        simp only [collectByAddrLoop, if_neg hb, if_neg hm, if_neg hns, ih]

/-- **C7.** For every symbol table section, input set (names or addresses) and
complement flag, the collector returns exactly one `SymbolWrapper` — in table
order, carrying the section's current version — for each table entry of type
`STT_FUNC` whose name is outside the `{_init, _fini}` blacklist and which
matches the input set (or its complement); no other entries are returned.  The
collector is a pure function of the section, so the underlying table is not
modified. -/
theorem collector_returns_exactly_matching_entries
    (sec : SymtabSection) (names : List String) (addrs : List Nat) (c : Bool) :
    collect_symbols_by_name sec names c =
      (sec.symbols.enum).filterMap
        (fun p => if collectsName names c p.2 then some (mkWrapper sec.version p.1 p.2)
          else none) ∧
    collect_symbols_by_address sec addrs c =
      (sec.symbols.enum).filterMap
        (fun p => if collectsAddr addrs c p.2 then some (mkWrapper sec.version p.1 p.2)
          else none) ∧
    (∀ w ∈ collect_symbols_by_name sec names c, w.sec_version = sec.version) ∧
    (∀ w ∈ collect_symbols_by_address sec addrs c, w.sec_version = sec.version) := by
  refine ⟨?_, ?_, ?_, ?_⟩
  · rw [collect_symbols_by_name, collectByNameLoop_eq, List.enum]
  · rw [collect_symbols_by_address, collectByAddrLoop_eq, List.enum]
  · intro w hw
    rw [collect_symbols_by_name, collectByNameLoop_eq] at hw
    rcases List.mem_filterMap.1 hw with ⟨p, _, hp⟩
    by_cases h : collectsName names c p.2
    · rw [if_pos h] at hp
      cases hp; rfl
    · rw [if_neg h] at hp; cases hp
  · intro w hw
    rw [collect_symbols_by_address, collectByAddrLoop_eq] at hw
    rcases List.mem_filterMap.1 hw with ⟨p, _, hp⟩
    by_cases h : collectsAddr addrs c p.2
    · rw [if_pos h] at hp
      cases hp; rfl
    · rw [if_neg h] at hp; cases hp

/-! ## The file image and the `0xCC` overwriter -/

/-- In-place write on the file stream, modelled on an explicit byte list:
`seek(pos)` followed by `write(data)`.  (Every write the theorems reason
about stays inside the file, `pos + data.length ≤ file.length`.) -/
def writeAt (file : List Nat) (pos : Nat) (data : List Nat) : List Nat :=
  file.take pos ++ data ++ file.drop (pos + data.length)

theorem writeAt_length (file : List Nat) (pos : Nat) (data : List Nat)
    (h : pos + data.length ≤ file.length) :
    (writeAt file pos data).length = file.length := by
  simp only [writeAt, List.length_append, List.length_take, List.length_drop]
  omega

theorem writeAt_getD_inside (file : List Nat) (pos : Nat) (data : List Nat) (p d : Nat)
    (hlo : pos ≤ p) (hhi : p < pos + data.length) (hb : pos ≤ file.length) :
    (writeAt file pos data).getD p d = data.getD (p - pos) d := by
  unfold writeAt
  rw [List.append_assoc, List.getD_append_right _ _ _ _ (by simp [List.length_take]; omega)]
  rw [List.getD_append _ _ _ _ (by simp [List.length_take]; omega)]
  congr 1
  simp [List.length_take]
  omega

theorem writeAt_getD_outside (file : List Nat) (pos : Nat) (data : List Nat) (p d : Nat)
    (hb : pos + data.length ≤ file.length)
    (h : p < pos ∨ pos + data.length ≤ p) :
    (writeAt file pos data).getD p d = file.getD p d := by
  unfold writeAt
  rcases h with h | h
  · rw [List.getD_append _ _ _ _ (by simp [List.length_take]; omega)]
    rw [List.getD_append _ _ _ _ (by simp [List.length_take]; omega)]
    rw [List.getD_eq_getElem _ _ (by simp [List.length_take]; omega),
      List.getD_eq_getElem _ _ (by omega)]
    exact List.getElem_take file
  · have htk : (file.take pos).length = pos := by simp [List.length_take]; omega
    rw [List.append_assoc, List.getD_append_right _ _ _ _ (by omega)]
    rw [List.getD_append_right _ _ _ _ (by simp [htk]; omega)]
    rcases Nat.lt_or_ge p file.length with hp | hp
    · rw [List.getD_eq_getElem _ _ (by simp [htk, List.length_drop]; omega),
        List.getD_eq_getElem _ _ hp]
      rw [List.getElem_drop]
      congr 1
      simp [htk]
      omega
    · rw [List.getD_eq_default _ _ (by simp [htk, List.length_drop]; omega),
        List.getD_eq_default _ _ hp]

/-! ## `remove_from_section`: the version-checked deletion loop -/

/-- Exceptions `remove_from_section` can raise before reaching the cascade:
`staleCollection` is `'symbol_collection was generated for older revision'`
(lines 1156-1158), `missingSection` is `'Section not available!'` (line 1129)
and `indexError` is the Python `IndexError` that `section_entries.pop` raises
on an out-of-range index (line 1162). -/
inductive RemoveError
  | staleCollection
  | missingSection
  | indexError
  deriving Repr, DecidableEq

/-- A symbol table section as `remove_from_section` manipulates it: the raw
entry byte-strings read from the file, the header index (`-1` = synthetic)
and the version counter. -/
structure TableSection where
  entries : List (List Nat)
  index : Int
  version : Nat
  deriving Repr, DecidableEq

/-- Outcome of the deletion loop of `remove_from_section` (lines 1154-1171):
the surviving entries, the file image after the `0xCC` overwrites, and the
`removed` counter. -/
structure RemoveLoopResult where
  entries : List (List Nat)
  file : List Nat
  removed : Nat
  deriving Repr, DecidableEq

/-- The `for symbol_t in sorted_list` loop of `remove_from_section`
(lines 1154-1171): check the ref's `sec_version` against the section version,
pop the table entry (only for a physical section, `index ≠ -1`), and
overwrite `[st_value, st_value + st_size)` with `0xCC` when `overwrite` is
set, the section is physical, and both address and size are nonzero. -/
def removeSymbolsLoop (ver : Nat) (physical overwrite : Bool) :
    List SymbolWrapper → List (List Nat) → List Nat →
      Except RemoveError RemoveLoopResult
  | [], entries, file => .ok ⟨entries, file, 0⟩
  | s :: rest, entries, file =>
    if s.sec_version ≠ ver then .error .staleCollection
    else if physical then
      if s.index < entries.length then
        let entries' := entries.eraseIdx s.index
        let file' := if overwrite = true ∧ s.value ≠ 0 ∧ s.size ≠ 0 then
            writeAt file s.value (List.replicate s.size 0xCC)
          else file
        match removeSymbolsLoop ver physical overwrite rest entries' file' with
        | .ok r => .ok ⟨r.entries, r.file, r.removed + 1⟩
        | .error e => .error e
      else .error .indexError
    else
      match removeSymbolsLoop ver physical overwrite rest entries file with
      | .ok r => .ok ⟨r.entries, r.file, r.removed + 1⟩
      | .error e => .error e

/-- `sorted(collection, reverse=True, key=lambda x: x.index)` (line 1137):
a stable sort into descending table-index order (`insertionSort` is stable,
as is Python's `sorted`). -/
def sortByIndexDesc (collection : List SymbolWrapper) : List SymbolWrapper :=
  collection.insertionSort (fun a b => b.index ≤ a.index)

/-- Front half of `remove_from_section` (lines 1127-1171): the missing-section
check, the empty-collection early return, reading the table (`[]` for a
synthetic section, line 1152), and the deletion loop over the descending-index
sorted collection.  The cascade that follows (relocations, `.dynstr`, hash
tables, versions) is modelled by the dedicated batch functions below and
raises no `staleCollection`. -/
def remove_from_section (sec : Option TableSection) (collection : List SymbolWrapper)
    (overwrite : Bool) (file : List Nat) : Except RemoveError RemoveLoopResult :=
  match sec with
  | none => .error .missingSection
  | some s =>
    if collection = [] then .ok ⟨if s.index ≠ -1 then s.entries else [], file, 0⟩
    else
      removeSymbolsLoop s.version (s.index ≠ -1) overwrite (sortByIndexDesc collection)
        (if s.index ≠ -1 then s.entries else []) file

/-- `overwrite_local_functions` (lines 1288-1296), byte-overwrite phase: every
`(start, size)` pair with nonzero size has `[start, start + size)` filled with
`0xCC`; the subsequent `.symtab` purge is `remove_from_section` above. -/
def overwrite_local_functions (local_functions : List (Nat × Nat)) (file : List Nat) :
    List Nat :=
  local_functions.foldl
    (fun f p => if p.2 = 0 then f else writeAt f p.1 (List.replicate p.2 0xCC)) file

/-- An ELF program-header segment as far as address translation needs it. -/
structure Segment where
  p_vaddr : Nat
  p_offset : Nat
  p_filesz : Nat
  deriving Repr, DecidableEq

/-- The segment address→offset translation the spec describes (pyelftools'
`ELFFile.address_offsets`, which the source uses only for REL addends in
`_reloc_get_addend_REL`): the file offset of a virtual address is
`addr - p_vaddr + p_offset` of a containing segment. -/
def address_to_offset (segs : List Segment) (addr : Nat) : Option Nat :=
  (segs.find? (fun s => decide (s.p_vaddr ≤ addr ∧ addr < s.p_vaddr + s.p_filesz))).map
    (fun s => addr - s.p_vaddr + s.p_offset)

/-! ## Section state after a removal batch (version counter) -/

/-- The two symbol-table slots of the `ELFRemove` object that
`remove_from_section` can be called on. -/
structure ElfState where
  dynsym : Option TableSection
  symtab : Option TableSection
  deriving Repr, DecidableEq

/-- Lines 1181 and 1188-1189 of `remove_from_section`: a new wrapper with the
version counter incremented is built, but it is stored back into the object
only for `.dynsym` (`self.dynsym = section`); for any other section name the
rebound local variable is discarded. -/
def sectionAfterRemoval (st : ElfState) (sectionName : String) (s : TableSection) :
    ElfState :=
  let bumped : TableSection := { s with version := s.version + 1 }
  if sectionName = ".dynsym" then { st with dynsym := some bumped } else st

/-! ## Lemmas about the deletion loop -/

theorem getD_replicate_inside (n a i d : Nat) (h : i < n) :
    (List.replicate n a).getD i d = a := by
  rw [List.getD_eq_getElem _ _ (by simpa using h)]
  simp

/-- Reading position `p` after overwriting `[pos, pos + size)` with `0xCC`. -/
theorem writeCC_getD (file : List Nat) (pos size p : Nat)
    (hb : pos + size ≤ file.length) :
    (writeAt file pos (List.replicate size 0xCC)).getD p 0 =
      if pos ≤ p ∧ p < pos + size then 0xCC else file.getD p 0 := by
  by_cases h : pos ≤ p ∧ p < pos + size
  · rw [if_pos h]
    rw [writeAt_getD_inside _ _ _ _ _ h.1 (by simpa using h.2) (by omega)]
    exact getD_replicate_inside _ _ _ _ (by omega)
  · rw [if_neg h]
    exact writeAt_getD_outside _ _ _ _ _ (by simpa using hb)
      (by simp only [List.length_replicate]; omega)

theorem removeSymbolsLoop_ok (ver : Nat) (physical overwrite : Bool) :
    ∀ (syms : List SymbolWrapper) (entries : List (List Nat)) (file : List Nat),
      (∀ w ∈ syms, w.sec_version = ver) →
      (physical = true → List.Pairwise (fun a b => b.index < a.index) syms ∧
        ∀ w ∈ syms, w.index < entries.length) →
      (∀ w ∈ syms, w.value + w.size ≤ file.length) →
      ∃ r, removeSymbolsLoop ver physical overwrite syms entries file = .ok r ∧
        r.file.length = file.length ∧
        (∀ p, file.getD p 0 = 0xCC → r.file.getD p 0 = 0xCC) ∧
        (∀ w ∈ syms, physical = true → overwrite = true → w.value ≠ 0 → w.size ≠ 0 →
          ∀ p, w.value ≤ p → p < w.value + w.size → r.file.getD p 0 = 0xCC) ∧
        (overwrite = false → r.file = file) := by
  intro syms
  induction syms with
  | nil =>
    intro entries file _ _ _
    exact ⟨⟨entries, file, 0⟩, rfl, rfl, fun p h => h, fun w hw => absurd hw (by simp),
      fun _ => rfl⟩
  | cons s rest ih =>
    intro entries file hver hval hbound
    have hsv : ¬ s.sec_version ≠ ver := by
      simp only [ne_eq, not_not]
      exact hver s (List.mem_cons_self s rest)
    cases hph : physical with
    | false =>
      rcases ih entries file (fun w hw => hver w (List.mem_cons_of_mem s hw))
        (fun h => absurd (h.symm.trans hph) (by decide))
        (fun w hw => hbound w (List.mem_cons_of_mem s hw)) with
        ⟨r, hr, hlen, hpres, hwin, hnw⟩
      rw [hph] at hr
      refine ⟨⟨r.entries, r.file, r.removed + 1⟩, ?_, hlen, hpres, ?_, hnw⟩
      · simp only [removeSymbolsLoop, if_neg hsv, hph, Bool.false_eq_true, if_false, hr]
      · intro w hw hphys
        exact absurd hphys (by decide)
    | true =>
      have hidx : s.index < entries.length :=
        (hval hph).2 s (List.mem_cons_self s rest)
      have hlen' : (entries.eraseIdx s.index).length + 1 = entries.length :=
        List.length_eraseIdx_add_one hidx
      have hwb : s.value + s.size ≤ file.length := hbound s (List.mem_cons_self s rest)
      set file' : List Nat := if overwrite = true ∧ s.value ≠ 0 ∧ s.size ≠ 0 then
          writeAt file s.value (List.replicate s.size 0xCC)
        else file with hfile'
      have hflen : file'.length = file.length := by
        rw [hfile']
        split
        · exact writeAt_length _ _ _ (by simpa using hwb)
        · rfl
      rcases ih (entries.eraseIdx s.index) file'
        (fun w hw => hver w (List.mem_cons_of_mem s hw))
        (fun _ => ⟨((hval hph).1.sublist (List.sublist_cons_self s rest)),
          fun w hw => by
            have h1 : w.index < s.index := by
              have := (List.pairwise_cons.1 (hval hph).1).1 w hw
              exact this
            omega⟩)
        (fun w hw => by rw [hflen]; exact hbound w (List.mem_cons_of_mem s hw)) with
        ⟨r, hr, hlen, hpres, hwin, hnw⟩
      rw [hph] at hr
      have hpres' : ∀ p, file.getD p 0 = 0xCC → file'.getD p 0 = 0xCC := by
        intro p hp
        rw [hfile']
        split
        · rw [writeCC_getD _ _ _ _ hwb]
          split
          · rfl
          · exact hp
        · exact hp
      refine ⟨⟨r.entries, r.file, r.removed + 1⟩, ?_, by rw [hlen, hflen], ?_, ?_, ?_⟩
      · simp only [removeSymbolsLoop, if_neg hsv, hph, if_true, if_pos hidx, ← hfile', hr]
      · intro p hp
        exact hpres p (hpres' p hp)
      · intro w hw _ how hv hs p hp1 hp2
        rcases List.mem_cons.1 hw with hw | hw
        · subst hw
          apply hpres
          rw [hfile', if_pos ⟨how, hv, hs⟩, writeCC_getD _ _ _ _ hwb, if_pos ⟨hp1, hp2⟩]
        · exact hwin w hw hph how hv hs p hp1 hp2
      · intro how
        have : file' = file := by
          rw [hfile', if_neg]
          rintro ⟨h1, -⟩
          exact absurd (how.symm.trans h1) (by decide)
        rw [hnw how, this]

/-- The version check (line 1156) precedes the table `pop` (line 1162), so a
deletion loop whose first symbol is stale fails immediately, before any table
index is touched. -/
theorem removeSymbolsLoop_head_stale (ver : Nat) (physical overwrite : Bool)
    (s : SymbolWrapper) (rest : List SymbolWrapper)
    (entries : List (List Nat)) (file : List Nat)
    (hs : s.sec_version ≠ ver) :
    removeSymbolsLoop ver physical overwrite (s :: rest) entries file =
      .error .staleCollection := by
  rw [removeSymbolsLoop, if_pos hs]

/-! ## Transfer lemmas for the descending-index sort -/

instance : IsTotal SymbolWrapper (fun a b => b.index ≤ a.index) :=
  ⟨fun a b => Nat.le_total b.index a.index⟩

instance : IsTrans SymbolWrapper (fun a b => b.index ≤ a.index) :=
  ⟨fun _ _ _ h1 h2 => Nat.le_trans h2 h1⟩

theorem sortByIndexDesc_perm (c : List SymbolWrapper) : List.Perm (sortByIndexDesc c) c :=
  List.perm_insertionSort _ c

theorem sortByIndexDesc_strict (c : List SymbolWrapper)
    (h : (c.map (·.index)).Nodup) :
    List.Pairwise (fun a b => b.index < a.index) (sortByIndexDesc c) := by
  have hs : List.Pairwise (fun a b => b.index ≤ a.index) (sortByIndexDesc c) :=
    List.sorted_insertionSort _ c
  have hn : ((sortByIndexDesc c).map (·.index)).Nodup :=
    (((sortByIndexDesc_perm c).map (·.index)).nodup_iff).2 h
  have hne : List.Pairwise (fun a b : SymbolWrapper => a.index ≠ b.index)
      (sortByIndexDesc c) := List.pairwise_map.1 hn
  exact (hs.and hne).imp (fun h => by omega)

theorem removeSymbolsLoop_not_stale (ver : Nat) (physical overwrite : Bool) :
    ∀ (syms : List SymbolWrapper) (entries : List (List Nat)) (file : List Nat),
      (∀ w ∈ syms, w.sec_version = ver) →
      removeSymbolsLoop ver physical overwrite syms entries file ≠
        .error .staleCollection := by
  intro syms
  induction syms with
  | nil => intro entries file _ h; cases h
  | cons s rest ih =>
    intro entries file hver
    have hsv : ¬ s.sec_version ≠ ver := by
      simp only [ne_eq, not_not]
      exact hver s (List.mem_cons_self s rest)
    have hver' : ∀ w ∈ rest, w.sec_version = ver :=
      fun w hw => hver w (List.mem_cons_of_mem s hw)
    simp only [removeSymbolsLoop, if_neg hsv]
    split
    · split
      · cases hrec : removeSymbolsLoop ver physical overwrite rest
            (entries.eraseIdx s.index)
            (if overwrite = true ∧ s.value ≠ 0 ∧ s.size ≠ 0 then
              writeAt file s.value (List.replicate s.size 0xCC) else file) with
        | ok r => simp [hrec]
        | error e =>
          simp only [hrec]
          intro h
          exact (ih _ _ hver') (hrec.trans (by injection h with h; rw [h]))
      · intro h
        injection h with h
        cases h
    · cases hrec : removeSymbolsLoop ver physical overwrite rest entries file with
      | ok r => simp [hrec]
      | error e =>
        simp only [hrec]
        intro h
        exact (ih _ _ hver') (hrec.trans (by injection h with h; rw [h]))

/-- **C8.** `remove_from_section` fails with the *StaleCollection* error
(`'symbol_collection was generated for older revision'`, lines 1154-1158)
whenever the input list contains a `SymbolWrapper` whose `sec_version` differs
from the target section's current version, and with a non-empty list of refs
all carrying the current version it never produces that error.  The only
condition is that all refs in the list carry one and the same `sec_version`,
which holds of every collection by construction: a collection is produced by
a single collector pass that stamps `section.version` on each ref
(lines 1251-1253 and 1277-1279).  In particular a stale collection whose
indices no longer fit the post-mutation, shrunken table is still detected:
the version check (line 1156) runs before the `pop` (line 1162), so the
first — highest-index — ref already raises the error, and no `IndexError`
can preempt it. -/
theorem remove_from_section_stale_check (s : TableSection)
    (collection : List SymbolWrapper) (overwrite : Bool) (file : List Nat)
    (hhom : ∀ w1 ∈ collection, ∀ w2 ∈ collection,
      w1.sec_version = w2.sec_version) :
    ((∃ w ∈ collection, w.sec_version ≠ s.version) →
      remove_from_section (some s) collection overwrite file =
        .error .staleCollection) ∧
    (collection ≠ [] → (∀ w ∈ collection, w.sec_version = s.version) →
      remove_from_section (some s) collection overwrite file ≠
        .error .staleCollection) := by
  constructor
  · intro hex
    rcases hex with ⟨w, hw, hwv⟩
    have hne : collection ≠ [] := by
      rintro rfl
      cases hw
    rw [remove_from_section, if_neg hne]
    cases hsort : sortByIndexDesc collection with
    | nil =>
      exfalso
      have : collection = [] :=
        ((hsort ▸ sortByIndexDesc_perm collection).symm).eq_nil
      exact hne this
    | cons h t =>
      have hmem : h ∈ sortByIndexDesc collection := by
        rw [hsort]
        exact List.mem_cons_self h t
      have hhv : h.sec_version ≠ s.version := by
        rw [hhom h ((sortByIndexDesc_perm collection).mem_iff.1 hmem) w hw]
        exact hwv
      exact removeSymbolsLoop_head_stale _ _ _ _ _ _ _ hhv
  · intro hne hall
    rw [remove_from_section, if_neg hne]
    exact removeSymbolsLoop_not_stale _ _ _ _ _ _
      (fun w hw => hall w ((sortByIndexDesc_perm collection).mem_iff.1 hw))

/-- Witness for C8: a physical section at version 0 holding a single entry.
The first collection carries a stale ref (`sec_version = 1`) whose table
index 5 exceeds the current table length — the canonical post-shrink stale
scenario — and still trips *StaleCollection*; the second carries a
current-version ref and does not. -/
theorem remove_from_section_stale_check_witness :
    remove_from_section (some ⟨[[0]], 0, 0⟩) [⟨"a", 5, 0, 0, 0, 1⟩] true [] =
      .error .staleCollection ∧
    remove_from_section (some ⟨[[0]], 0, 0⟩) [⟨"a", 0, 0, 0, 0, 0⟩] true [] ≠
      .error .staleCollection :=
  ⟨(remove_from_section_stale_check ⟨[[0]], 0, 0⟩ [⟨"a", 5, 0, 0, 0, 1⟩] true []
      (by decide)).1 (by decide),
    (remove_from_section_stale_check ⟨[[0]], 0, 0⟩ [⟨"a", 0, 0, 0, 0, 0⟩] true []
      (by decide)).2 (by decide) (by decide)⟩

/-! ## C6: where the trap bytes land -/

/-- The file image a `remove_from_section` call leaves behind (empty on
error). -/
def exceptFile (e : Except RemoveError RemoveLoopResult) : List Nat :=
  match e with
  | .ok r => r.file
  | .error _ => []

/-- **C6, counterexample.**  The code seeks to `symbol_t.value` itself
(`self._f.seek(symbol_t.value)`, line 1168) — it never consults the segment
address→offset translation the claim describes.  With a segment mapping
`p_vaddr = 16` to `p_offset = 0`, a removed function at address 20 of size 2
has translated file offset 4, but after the operation the bytes at offset 4
are still 0 while the bytes at the untranslated offset 20 are `0xCC`. -/
theorem overwrite_translated_offset_counterexample :
    address_to_offset [⟨16, 0, 24⟩] 20 = some 4 ∧
    (exceptFile (remove_from_section (some ⟨[[0, 0]], 0, 0⟩)
        [⟨"f", 0, 0, 20, 2, 0⟩] true (List.replicate 40 0))).getD 4 0 = 0 ∧
    (exceptFile (remove_from_section (some ⟨[[0, 0]], 0, 0⟩)
        [⟨"f", 0, 0, 20, 2, 0⟩] true (List.replicate 40 0))).getD 20 0 = 0xCC := by
  decide

theorem overwrite_local_functions_spec :
    ∀ (locals : List (Nat × Nat)) (file : List Nat),
      (∀ q ∈ locals, q.1 + q.2 ≤ file.length) →
      (overwrite_local_functions locals file).length = file.length ∧
      (∀ p, file.getD p 0 = 0xCC →
        (overwrite_local_functions locals file).getD p 0 = 0xCC) ∧
      (∀ q ∈ locals, q.2 ≠ 0 → ∀ p, q.1 ≤ p → p < q.1 + q.2 →
        (overwrite_local_functions locals file).getD p 0 = 0xCC) ∧
      ((∀ q ∈ locals, q.2 = 0) → overwrite_local_functions locals file = file) := by
  intro locals
  induction locals with
  | nil =>
    intro file _
    exact ⟨rfl, fun p h => h, fun q hq => absurd hq (by simp), fun _ => rfl⟩
  | cons q rest ih =>
    intro file hb
    have hqb : q.1 + q.2 ≤ file.length := hb q (List.mem_cons_self q rest)
    set file1 : List Nat := if q.2 = 0 then file
        else writeAt file q.1 (List.replicate q.2 0xCC) with hfile1
    have hstep : overwrite_local_functions (q :: rest) file =
        overwrite_local_functions rest file1 := by
      simp only [overwrite_local_functions, List.foldl_cons, hfile1]
    have hf1len : file1.length = file.length := by
      rw [hfile1]
      split
      · rfl
      · exact writeAt_length _ _ _ (by simpa using hqb)
    have hf1pres : ∀ p, file.getD p 0 = 0xCC → file1.getD p 0 = 0xCC := by
      intro p hp
      rw [hfile1]
      split
      · exact hp
      · rw [writeCC_getD _ _ _ _ hqb]
        split
        · rfl
        · exact hp
    rcases ih file1 (fun w hw => by rw [hf1len]; exact hb w (List.mem_cons_of_mem q hw)) with
      ⟨hlen, hpres, hwin, hzero⟩
    refine ⟨?_, ?_, ?_, ?_⟩
    · rw [hstep, hlen, hf1len]
    · intro p hp
      rw [hstep]
      exact hpres p (hf1pres p hp)
    · intro w hw hwsz p hp1 hp2
      rw [hstep]
      rcases List.mem_cons.1 hw with hw | hw
      · subst hw
        apply hpres
        rw [hfile1, if_neg hwsz, writeCC_getD _ _ _ _ hqb, if_pos ⟨hp1, hp2⟩]
      · exact hwin w hw hwsz p hp1 hp2
    · intro hz
      have h1 : file1 = file := by
        rw [hfile1, if_pos (hz q (List.mem_cons_self q rest))]
      rw [hstep, hzero (fun w hw => hz w (List.mem_cons_of_mem q hw))]
      exact h1

/-- **C6 (amended).**  For every deleted function with nonzero address and
nonzero size — whether removed from a physical symbol table with overwrite
enabled, or given in the local-function set — all `size` bytes *at the file
offset equal to its `st_value`* (the code seeks to the virtual address
directly, without the segment address→offset translation) are `0xCC` after the
operation; no bytes are overwritten when overwrite is disabled or the size is
zero. -/
theorem overwrite_trap_bytes
    (s : TableSection) (collection : List SymbolWrapper)
    (locals : List (Nat × Nat)) (file : List Nat)
    (hphys : s.index ≠ -1)
    (hver : ∀ w ∈ collection, w.sec_version = s.version)
    (hnodup : (collection.map (·.index)).Nodup)
    (hidx : ∀ w ∈ collection, w.index < s.entries.length)
    (hbound : ∀ w ∈ collection, w.value + w.size ≤ file.length)
    (hlb : ∀ q ∈ locals, q.1 + q.2 ≤ file.length) :
    (∃ r, remove_from_section (some s) collection true file = .ok r ∧
      r.file.length = file.length ∧
      ∀ w ∈ collection, w.value ≠ 0 → w.size ≠ 0 →
        ∀ p, w.value ≤ p → p < w.value + w.size → r.file.getD p 0 = 0xCC) ∧
    (∀ q ∈ locals, q.2 ≠ 0 → ∀ p, q.1 ≤ p → p < q.1 + q.2 →
      (overwrite_local_functions locals file).getD p 0 = 0xCC) ∧
    (∀ r, remove_from_section (some s) collection false file = .ok r →
      r.file = file) ∧
    ((∀ q ∈ locals, q.2 = 0) → overwrite_local_functions locals file = file) := by
  have hloop : ∀ overwrite : Bool, collection ≠ [] →
      ∃ r, removeSymbolsLoop s.version (decide (s.index ≠ -1)) overwrite
          (sortByIndexDesc collection)
          (if s.index ≠ -1 then s.entries else []) file = .ok r ∧
        r.file.length = file.length ∧
        (∀ p, file.getD p 0 = 0xCC → r.file.getD p 0 = 0xCC) ∧
        (∀ w ∈ sortByIndexDesc collection,
          decide (s.index ≠ -1) = true → overwrite = true → w.value ≠ 0 → w.size ≠ 0 →
          ∀ p, w.value ≤ p → p < w.value + w.size → r.file.getD p 0 = 0xCC) ∧
        (overwrite = false → r.file = file) := by
    intro overwrite _
    apply removeSymbolsLoop_ok
    · intro w hw
      exact hver w ((sortByIndexDesc_perm collection).mem_iff.1 hw)
    · intro _
      refine ⟨sortByIndexDesc_strict collection hnodup, ?_⟩
      intro w hw
      rw [if_pos hphys]
      exact hidx w ((sortByIndexDesc_perm collection).mem_iff.1 hw)
    · intro w hw
      exact hbound w ((sortByIndexDesc_perm collection).mem_iff.1 hw)
  rcases overwrite_local_functions_spec locals file hlb with ⟨-, -, holw, holz⟩
  refine ⟨?_, holw, ?_, holz⟩
  · by_cases hne : collection = []
    · subst hne
      refine ⟨⟨if s.index ≠ -1 then s.entries else [], file, 0⟩, ?_, rfl, ?_⟩
      · rw [remove_from_section, if_pos rfl]
      · intro w hw
        cases hw
    · rcases hloop true hne with ⟨r, hr, hlen, -, hwin, -⟩
      refine ⟨r, ?_, hlen, ?_⟩
      · rw [remove_from_section, if_neg hne]
        exact hr
      · intro w hw hv hs p hp1 hp2
        exact hwin w ((sortByIndexDesc_perm collection).mem_iff.2 hw)
          (decide_eq_true hphys) rfl hv hs p hp1 hp2
  · intro r hr
    by_cases hne : collection = []
    · subst hne
      rw [remove_from_section, if_pos rfl] at hr
      injection hr with hr
      rw [← hr]
    · rcases hloop false hne with ⟨r0, hr0, -, -, -, hnw⟩
      rw [remove_from_section, if_neg hne] at hr
      have : r = r0 := by
        have := hr0.symm.trans hr
        injection this with h
        rw [h]
      rw [this, hnw rfl]

/-- Witness for C6 (amended): one removed symbol at address 4 of size 2 in a
physical table, one local function at `(8, 2)`, over a 12-byte file. -/
theorem overwrite_trap_bytes_witness :
    ((0 : Int) ≠ -1) ∧
    ((∃ r, remove_from_section (some ⟨[[9, 9]], 0, 0⟩) [⟨"f", 0, 0, 4, 2, 0⟩] true
        (List.replicate 12 0) = .ok r ∧
      r.file.length = (List.replicate 12 (0 : Nat)).length ∧
      ∀ w ∈ [(⟨"f", 0, 0, 4, 2, 0⟩ : SymbolWrapper)], w.value ≠ 0 → w.size ≠ 0 →
        ∀ p, w.value ≤ p → p < w.value + w.size → r.file.getD p 0 = 0xCC) ∧
    (∀ q ∈ [((8 : Nat), (2 : Nat))], q.2 ≠ 0 → ∀ p, q.1 ≤ p → p < q.1 + q.2 →
      (overwrite_local_functions [(8, 2)] (List.replicate 12 0)).getD p 0 = 0xCC) ∧
    (∀ r, remove_from_section (some ⟨[[9, 9]], 0, 0⟩) [⟨"f", 0, 0, 4, 2, 0⟩] false
        (List.replicate 12 0) = .ok r → r.file = List.replicate 12 0) ∧
    ((∀ q ∈ [((8 : Nat), (2 : Nat))], q.2 = 0) →
      overwrite_local_functions [(8, 2)] (List.replicate 12 0) = List.replicate 12 0)) :=
  ⟨by decide,
    overwrite_trap_bytes ⟨[[9, 9]], 0, 0⟩ [⟨"f", 0, 0, 4, 2, 0⟩] [(8, 2)]
      (List.replicate 12 0) (by decide) (by decide) (by decide) (by decide)
      (by decide) (by decide)⟩

/-- **C9.**  Evaluation of the post-batch state update at the failing input:
`remove_from_section` builds a wrapper with the version incremented
(line 1181) but stores it back only for `.dynsym` (lines 1188-1189), so after
a successful `.symtab` batch the object still holds the *old* wrapper — the
version observed by subsequent collect/remove operations is unchanged and a
pre-batch `SymbolWrapper` is *not* detected as stale, contradicting the claim
for `.symtab`. -/
theorem symtab_version_not_observed :
    (sectionAfterRemoval ⟨none, some ⟨[[0], [1]], 0, 0⟩⟩ ".symtab"
        ⟨[[0], [1]], 0, 0⟩).symtab = some ⟨[[0], [1]], 0, 0⟩ ∧
    (sectionAfterRemoval ⟨some ⟨[[0], [1]], 0, 0⟩, none⟩ ".dynsym"
        ⟨[[0], [1]], 0, 0⟩).dynsym = some ⟨[[0], [1]], 0, 1⟩ := by
  constructor
  · simp [sectionAfterRemoval]
  · simp [sectionAfterRemoval]

/-! ## C1: relocation index renumbering (`_batch_remove_relocs`, lines 467-511) -/

/-- A relocation entry as `_batch_remove_relocs` manipulates it.  The code
keeps `r_info` and `r_info_sym` in sync (lines 505-510: it recomputes
`r_info = new_sym << shift | (old_type & mask)` whenever it rewrites
`r_info_sym`), so `r_info` is represented by its decomposition. -/
structure RelocEntry where
  r_offset : Nat
  r_info_sym : Nat
  r_info_type : Nat
  r_addend : Int
  deriving Repr, DecidableEq

/-- The `while cur_reloc_idx >= 0` fixup loop (lines 469-511), expressed on
the *reversed* relocation list (the loop walks from the back of the list,
which is sorted by ascending `(r_info_sym, addend)`); `symbol_list` holds the
symbols not yet skipped, so `num_earlier_removed_symbols` is its length.
Reaching `r_info_sym == 0` breaks in push mode (line 481-483) and rewrites
`new_sym = 0` otherwise (lines 501-510); a relocation with `r_info_sym` at or
below the current symbol's index skips over that symbol, breaking when none
are left (lines 488-495); otherwise the entry is rewritten by subtracting
`num_earlier_removed_symbols` (lines 503-510). -/
def fixupRev (push : Bool) : List RelocEntry → List SymbolWrapper → List RelocEntry
  | [], _ => []
  | r :: rs, [] => r :: rs
  | r :: rs, cur :: rest =>
    if r.r_info_sym = 0 then
      if push then r :: rs
      else { r with r_info_sym := 0 } :: fixupRev push rs (cur :: rest)
    else if r.r_info_sym ≤ cur.index then
      match rest with
      | [] => r :: rs
      | c :: cs => fixupRev push (r :: rs) (c :: cs)
    else
      { r with r_info_sym := r.r_info_sym - (cur :: rest).length } ::
        fixupRev push rs (cur :: rest)
  termination_by l s => (l.length, s.length)

/-- The index-fixup phase of `_batch_remove_relocs` on the forward list:
skipped entirely when `is_symtab` is set (line 468). -/
def renumberRelocs (push is_symtab : Bool) (reloc_list : List RelocEntry)
    (symbol_list : List SymbolWrapper) : List RelocEntry :=
  if is_symtab then reloc_list
  else (fixupRev push reloc_list.reverse symbol_list).reverse

/-- The rewrite C1 claims for one surviving entry: a nonzero symbol index is
decreased by the number of removed symbols with a strictly lower original
index. -/
def renumberOne (symbol_list : List SymbolWrapper) (r : RelocEntry) : RelocEntry :=
  if r.r_info_sym = 0 then r
  else { r with r_info_sym :=
    r.r_info_sym - symbol_list.countP (fun s => s.index < r.r_info_sym) }

theorem map_eq_self_of_mem {α : Type} (f : α → α) (l : List α)
    (h : ∀ x ∈ l, f x = x) : l.map f = l := by
  induction l with
  | nil => rfl
  | cons a l ih =>
    rw [List.map_cons, h a (List.mem_cons_self a l),
      ih (fun x hx => h x (List.mem_cons_of_mem a hx))]

theorem renumberOne_eq_self (syms : List SymbolWrapper) (r : RelocEntry)
    (h : syms.countP (fun s => s.index < r.r_info_sym) = 0) :
    renumberOne syms r = r := by
  unfold renumberOne
  split
  · rfl
  · rw [h]
    rfl

theorem fixupRev_push_eq :
    ∀ (rel : List RelocEntry) (syms : List SymbolWrapper),
      List.Pairwise (fun a b => b.r_info_sym ≤ a.r_info_sym) rel →
      List.Pairwise (fun a b : SymbolWrapper => b.index < a.index) syms →
      fixupRev true rel syms = rel.map (renumberOne syms) := by
  intro rel syms
  induction rel, syms using fixupRev.induct true with
  | case1 syms =>
    intro _ _
    rw [fixupRev.eq_def]
    simp
  | case2 r rs =>
    intro _ _
    rw [fixupRev.eq_def]
    exact (map_eq_self_of_mem _ _ (fun x _ =>
      renumberOne_eq_self [] x (by rfl))).symm
  | case3 r rs cur rest hz hpush =>
    intro hrel _
    rw [fixupRev.eq_def]
    simp only [if_pos hz, if_pos hpush]
    refine (map_eq_self_of_mem _ _ (fun x hx => ?_)).symm
    have hx0 : x.r_info_sym = 0 := by
      rcases List.mem_cons.1 hx with hx | hx
      · rw [hx, hz]
      · have := (List.pairwise_cons.1 hrel).1 x hx
        omega
    rw [renumberOne, if_pos hx0]
  | case4 r rs cur rest hz hpush ih =>
    exact absurd rfl hpush
  | case5 r rs cur hz hle =>
    intro hrel _
    rw [fixupRev.eq_def]
    simp only [if_neg hz, if_pos hle]
    refine (map_eq_self_of_mem _ _ (fun x hx => ?_)).symm
    apply renumberOne_eq_self
    rw [List.countP_eq_zero]
    intro s hs
    rcases List.mem_singleton.1 hs with rfl
    have hxr : x.r_info_sym ≤ r.r_info_sym := by
      rcases List.mem_cons.1 hx with hx | hx
      · rw [hx]
      · exact (List.pairwise_cons.1 hrel).1 x hx
    simp only [decide_eq_true_eq]
    omega
  | case6 r rs cur hz hle c cs ih =>
    intro hrel hsyms
    rw [fixupRev.eq_def]
    simp only [if_neg hz, if_pos hle]
    rw [ih hrel (List.pairwise_cons.1 hsyms).2]
    apply List.map_congr_left
    intro x hx
    have hxr : x.r_info_sym ≤ r.r_info_sym := by
      rcases List.mem_cons.1 hx with hx | hx
      · rw [hx]
      · exact (List.pairwise_cons.1 hrel).1 x hx
    unfold renumberOne
    split
    · rfl
    · have hcur : ¬ cur.index < x.r_info_sym := by omega
      simp [List.countP_cons, hcur]
  | case7 r rs cur rest hz hle ih =>
    intro hrel hsyms
    rw [fixupRev.eq_def]
    simp only [if_neg hz, if_neg hle]
    rw [ih (List.pairwise_cons.1 hrel).2 hsyms]
    congr 1
    unfold renumberOne
    rw [if_neg hz]
    have hall : (cur :: rest).countP (fun s => s.index < r.r_info_sym) =
        (cur :: rest).length := by
      rw [List.countP_eq_length]
      intro s hs
      have : s.index ≤ cur.index := by
        rcases List.mem_cons.1 hs with hs | hs
        · rw [hs]
        · exact Nat.le_of_lt ((List.pairwise_cons.1 hsyms).1 s hs)
      simp only [decide_eq_true_eq]
      omega
    rw [hall]

/-- **C1.**  In a relocation-compaction pass for a `.dynsym` removal
(`is_symtab` false, `push` mode — all matching entries already removed, so the
surviving list is still sorted by ascending symbol index), the fixup loop
rewrites every surviving entry that still has a nonzero `r_info_sym` to its
old value minus the number of removed symbols whose original `.dynsym` index
is lower than that value, and leaves `r_info_sym = 0` entries unchanged; in
`is_symtab` mode no entry is changed at all.  The removed symbols arrive in
strictly descending index order (the collection sorted at line 1137), and
non-emptiness reflects that the pass only runs for a non-empty collection
(Python would raise `IndexError` at line 470 otherwise). -/
theorem relocation_renumbering (reloc_list : List RelocEntry)
    (symbol_list : List SymbolWrapper)
    (hrel : List.Pairwise (fun a b => a.r_info_sym ≤ b.r_info_sym) reloc_list)
    (hsyms : List.Pairwise (fun a b : SymbolWrapper => b.index < a.index) symbol_list)
    (hne : symbol_list ≠ []) :
    renumberRelocs true false reloc_list symbol_list =
      reloc_list.map (renumberOne symbol_list) ∧
    (∀ (push : Bool) (rel : List RelocEntry) (syms : List SymbolWrapper),
      renumberRelocs push true rel syms = rel) := by
  constructor
  · rw [renumberRelocs, if_neg (by decide)]
    rw [fixupRev_push_eq reloc_list.reverse symbol_list
      (List.pairwise_reverse.2 hrel) hsyms]
    rw [← List.map_reverse, List.reverse_reverse]
  · intro push rel syms
    rw [renumberRelocs, if_pos rfl]

/-- Witness for C1: three surviving relocations with symbol indices 0, 2, 5
and removed symbols at original indices 3 and 1 (descending): index 2 has one
removed symbol below it, index 5 has two, and the `R_*_RELATIVE` entry with
index 0 is untouched. -/
theorem relocation_renumbering_witness :
    List.Pairwise (fun a b : RelocEntry => a.r_info_sym ≤ b.r_info_sym)
      [⟨0, 0, 8, 5⟩, ⟨8, 2, 1, 0⟩, ⟨16, 5, 1, 0⟩] ∧
    (renumberRelocs true false [⟨0, 0, 8, 5⟩, ⟨8, 2, 1, 0⟩, ⟨16, 5, 1, 0⟩]
        [⟨"b", 3, 0, 0, 0, 0⟩, ⟨"a", 1, 0, 0, 0, 0⟩] =
      List.map (renumberOne [⟨"b", 3, 0, 0, 0, 0⟩, ⟨"a", 1, 0, 0, 0, 0⟩])
        [⟨0, 0, 8, 5⟩, ⟨8, 2, 1, 0⟩, ⟨16, 5, 1, 0⟩] ∧
    (∀ (push : Bool) (rel : List RelocEntry) (syms : List SymbolWrapper),
      renumberRelocs push true rel syms = rel)) :=
  ⟨by decide,
    relocation_renumbering [⟨0, 0, 8, 5⟩, ⟨8, 2, 1, 0⟩, ⟨16, 5, 1, 0⟩]
      [⟨"b", 3, 0, 0, 0, 0⟩, ⟨"a", 1, 0, 0, 0, 0⟩] (by decide) (by decide) (by decide)⟩

/-! ## C2: the relocation write-out phase (`_batch_remove_relocs`, lines 525-573) -/

/-- Little-endian serialization of `n` into `w` bytes (`struct.pack`). -/
def leBytes (w n : Nat) : List Nat :=
  (List.range w).map (fun i => n / 256 ^ i % 256)

/-- `struct.pack('<QqQ', r_offset, r_info, r_addend)` for RELA entries
(`ent_size = 24`, lines 533-535) resp. `struct.pack('<Ii', r_offset, r_info)`
for REL entries (`ent_size = 8`, lines 536-538), with
`r_info = r_info_sym << 32 | r_info_type` (resp. `<< 8`); the addend is
written two's-complement. -/
def relocBytes (is_rela : Bool) (r : RelocEntry) : List Nat :=
  if is_rela then
    leBytes 8 r.r_offset ++
      leBytes 8 (r.r_info_sym * 2 ^ 32 + r.r_info_type % 2 ^ 32) ++
      leBytes 8 (r.r_addend.emod (2 ^ 64)).toNat
  else
    leBytes 4 r.r_offset ++ leBytes 4 (r.r_info_sym * 2 ^ 8 + r.r_info_type % 2 ^ 8)

/-- Effect of the write-out phase of `_batch_remove_relocs` on the section
bytes, the section header size and the `DT_REL[A]SZ` dynamic tag:
`section_bytes` is what is written at `sh_offset`, `sh_size_sub` the amount
subtracted from the header size (`_change_section_size`, lines 551-552) and
`relsz_sub` the amount subtracted from `DT_REL[A]SZ` (lines 562-570; only in
push mode, and never when `need_continuous_relocations` is set).
`DT_REL[A]COUNT` is refreshed separately and not modelled here. -/
structure RelocWriteResult where
  section_bytes : List Nat
  sh_size_sub : Nat
  relsz_sub : Nat
  deriving Repr, DecidableEq

/-- Lines 525-573: serialize the surviving entries; fill the vacated tail with
`removed` copies of the last surviving entry's bytes (`removed * last_reloc`,
lines 543-545) when `need_continuous_relocations` is set, and with
`ent_size * removed` zero bytes otherwise (line 547); shrink `sh_size` and
`DT_REL[A]SZ` only when the flag is unset.  (`relocs_bytes[-1]` raises
`IndexError` on an empty survivor list; the `getD []` default is unreachable
under the theorems' hypotheses.) -/
def writeRelocSection (need_continuous_relocations push is_rela : Bool)
    (reloc_list : List RelocEntry) (removed : Nat) : RelocWriteResult :=
  let ent_size := if is_rela then 24 else 8
  let relocs_bytes := reloc_list.map (relocBytes is_rela)
  let fill_bytes := if need_continuous_relocations then
      (List.replicate removed ((relocs_bytes.getLast?).getD [])).flatten
    else List.replicate (ent_size * removed) 0
  { section_bytes := relocs_bytes.flatten ++ fill_bytes,
    sh_size_sub := if need_continuous_relocations then 0 else ent_size * removed,
    relsz_sub := if push = true ∧ need_continuous_relocations = false then
      ent_size * removed else 0 }

theorem leBytes_length (w n : Nat) : (leBytes w n).length = w := by
  simp [leBytes]

theorem relocBytes_length (is_rela : Bool) (r : RelocEntry) :
    (relocBytes is_rela r).length = if is_rela then 24 else 8 := by
  cases is_rela <;> simp [relocBytes, leBytes_length]

theorem flatten_const_length {α : Type} (f : α → List Nat) (c : Nat) :
    ∀ (L : List α), (∀ x ∈ L, (f x).length = c) →
      ((L.map f).flatten).length = c * L.length := by
  intro L
  induction L with
  | nil => intro _; simp
  | cons a L ih =>
    intro h
    rw [List.map_cons, List.flatten_cons, List.length_append,
      h a (List.mem_cons_self a L), ih (fun x hx => h x (List.mem_cons_of_mem a hx)),
      List.length_cons]
    ring

theorem flatten_const_length' (c : Nat) :
    ∀ (L : List (List Nat)), (∀ x ∈ L, x.length = c) →
      L.flatten.length = c * L.length := by
  intro L
  induction L with
  | nil => intro _; simp
  | cons a L ih =>
    intro h
    rw [List.flatten_cons, List.length_append, h a (List.mem_cons_self a L),
      ih (fun x hx => h x (List.mem_cons_of_mem a hx)), List.length_cons]
    ring

/-- **C2.**  When `need_continuous_relocations` is set, a removal batch that
removed at least one relocation entry leaves the relocation section's
`sh_size` and the `DT_RELSZ`/`DT_RELASZ` dynamic tag unchanged (zero is
subtracted from both), and the written section image is the surviving entries
followed by `removed` repeated copies of the last surviving entry's bytes
instead of zeroes — so the image still spans the original
`ent_size × (survivors + removed)` bytes. -/
theorem continuous_relocations_frame (push is_rela : Bool)
    (reloc_list : List RelocEntry) (removed : Nat)
    (hrem : 1 ≤ removed) (hne : reloc_list ≠ []) :
    (writeRelocSection true push is_rela reloc_list removed).sh_size_sub = 0 ∧
    (writeRelocSection true push is_rela reloc_list removed).relsz_sub = 0 ∧
    (writeRelocSection true push is_rela reloc_list removed).section_bytes =
      (reloc_list.map (relocBytes is_rela)).flatten ++
        (List.replicate removed (relocBytes is_rela (reloc_list.getLast hne))).flatten ∧
    (writeRelocSection true push is_rela reloc_list removed).section_bytes.length =
      (if is_rela then 24 else 8) * (reloc_list.length + removed) := by
  have hlast : ((reloc_list.map (relocBytes is_rela)).getLast?).getD [] =
      relocBytes is_rela (reloc_list.getLast hne) := by
    rw [List.getLast?_map, List.getLast?_eq_getLast reloc_list hne]
    rfl
  refine ⟨rfl, ?_, ?_, ?_⟩
  · rw [writeRelocSection]
    simp
  · rw [writeRelocSection]
    simp [List.getLast?_eq_getLast reloc_list hne]
  · rw [writeRelocSection]
    simp only [hlast, List.length_append, if_true]
    rw [flatten_const_length (relocBytes is_rela) (if is_rela then 24 else 8)
        reloc_list (fun x _ => relocBytes_length is_rela x),
      flatten_const_length' (if is_rela then 24 else 8)
        (List.replicate removed (relocBytes is_rela (reloc_list.getLast hne)))
        (fun x hx => by rw [List.eq_of_mem_replicate hx]; exact relocBytes_length _ _),
      List.length_replicate]
    cases is_rela <;> ring

/-- Witness for C2: two surviving RELA entries, one removed entry; the tail is
one copy of the second entry's 24 bytes and nothing shrinks. -/
theorem continuous_relocations_frame_witness :
    1 ≤ 1 ∧
    ((writeRelocSection true true true [⟨0, 1, 7, 4⟩, ⟨8, 2, 7, 9⟩] 1).sh_size_sub = 0 ∧
    (writeRelocSection true true true [⟨0, 1, 7, 4⟩, ⟨8, 2, 7, 9⟩] 1).relsz_sub = 0 ∧
    (writeRelocSection true true true [⟨0, 1, 7, 4⟩, ⟨8, 2, 7, 9⟩] 1).section_bytes =
      ([⟨0, 1, 7, 4⟩, ⟨8, 2, 7, 9⟩].map (relocBytes true)).flatten ++
        (List.replicate 1 (relocBytes true
          ([⟨0, 1, 7, 4⟩, ⟨8, 2, 7, 9⟩].getLast (by decide)))).flatten ∧
    (writeRelocSection true true true [⟨0, 1, 7, 4⟩, ⟨8, 2, 7, 9⟩] 1).section_bytes.length =
      (if true then 24 else 8) * ([⟨0, 1, 7, 4⟩, (⟨8, 2, 7, 9⟩ : RelocEntry)].length + 1)) :=
  ⟨by decide,
    continuous_relocations_frame true true [⟨0, 1, 7, 4⟩, ⟨8, 2, 7, 9⟩] 1
      (by decide) (by decide)⟩

/-! ## C3: `.dynstr` compaction (`_build_new_dynstr`, lines 997-1041) -/

/-- Mutable state of the range walk in `_build_new_dynstr`:
`index_map` is the old→new offset map (an association list consed at the
front, i.e. dict insertion), `out_bytes` the rewritten string table built so
far, and `last_start`/`last_end` the target offsets of the last range copied
or aliased. -/
structure DynstrState where
  index_map : List (Nat × Nat)
  out_bytes : List Nat
  last_start : Nat
  last_end : Nat
  deriving Repr, DecidableEq

/-- One iteration of the `for idx, (start, end) in enumerate(sorted[1:])` loop
(lines 1016-1039), with `prev = sorted[idx]` the positional predecessor:
skip a `start` that is already mapped (lines 1018-1019); if `start < prev_end`
it is a suffix alias — `assert(prev_end == end)` (line 1025, `none` on
failure), advance `last_start` by `start - prev_start` and record the mapping
without emitting bytes (lines 1026-1029); otherwise copy the range's
`length + 1` bytes from the old `.dynstr` to the next free slot
(lines 1031-1039). -/
def buildDynstrStep (dynstr : List Nat) (st : DynstrState) (prev cur : Nat × Nat) :
    Option DynstrState :=
  if (st.index_map.lookup cur.1).isSome then some st
  else if cur.1 < prev.2 then
    if prev.2 = cur.2 then
      some { st with
        last_start := st.last_start + (cur.1 - prev.1),
        index_map := (cur.1, st.last_start + (cur.1 - prev.1)) :: st.index_map }
    else none
  else
    let target_start := st.last_end + 1
    let length := cur.2 - cur.1
    some { index_map := (cur.1, target_start) :: st.index_map,
           out_bytes := st.out_bytes ++ (dynstr.drop cur.1).take (length + 1),
           last_start := target_start,
           last_end := target_start + length }

/-- The walk over the remaining sorted ranges, carrying the positional
predecessor. -/
def buildDynstrGo (dynstr : List Nat) :
    DynstrState → (Nat × Nat) → List (Nat × Nat) → Option DynstrState
  | st, _, [] => some st
  | st, prev, cur :: rest =>
    match buildDynstrStep dynstr st prev cur with
    | none => none
    | some st1 => buildDynstrGo dynstr st1 cur rest

/-- `_build_new_dynstr` after the refcount updates, on the sorted list of
surviving ranges (`sorted(self._dynstr_ranges.keys())`, line 1011): the first
range is identity-mapped (lines 1013-1015, the empty string per the ELF spec)
and `out_bytes` starts as the single NUL byte (line 1010); returns the new
table bytes and the old→new map.  (An empty range list would raise
`IndexError` at line 1013.) -/
def build_new_dynstr (dynstr : List Nat) (sorted_ranges : List (Nat × Nat)) :
    Option (List Nat × List (Nat × Nat)) :=
  match sorted_ranges with
  | [] => none
  | first :: rest =>
    (buildDynstrGo dynstr
        { index_map := [(first.1, first.1)], out_bytes := [0],
          last_start := first.1, last_end := first.2 } first rest).map
      (fun st => (st.out_bytes, st.index_map))

theorem buildDynstrGo_append (dynstr : List Nat) :
    ∀ (l1 l2 : List (Nat × Nat)) (st : DynstrState) (prev : Nat × Nat),
      buildDynstrGo dynstr st prev (l1 ++ l2) =
        (buildDynstrGo dynstr st prev l1).bind
          (fun st1 =>
            buildDynstrGo dynstr st1 ((prev :: l1).getLast (List.cons_ne_nil prev l1)) l2) := by
  intro l1
  induction l1 with
  | nil =>
    intro l2 st prev
    simp [buildDynstrGo, List.getLast_singleton]
  | cons c cs ih =>
    intro l2 st prev
    rw [List.cons_append, buildDynstrGo, buildDynstrGo]
    cases h : buildDynstrStep dynstr st prev c with
    | none => simp
    | some st1 =>
      simp only
      rw [ih l2 st1 c, List.getLast_cons (List.cons_ne_nil c cs)]

/-- When the current start is not yet mapped, a successful step binds exactly
`cur.1 ↦ st1.last_start` on top of the old map (both the alias branch and the
copy branch cons the new target, which they also store in `last_start`). -/
theorem buildDynstrStep_map (dynstr : List Nat) (st st1 : DynstrState)
    (prev cur : Nat × Nat)
    (hskip : st.index_map.lookup cur.1 = none)
    (hstep : buildDynstrStep dynstr st prev cur = some st1) :
    st1.index_map = (cur.1, st1.last_start) :: st.index_map := by
  rw [buildDynstrStep, hskip] at hstep
  simp only [Option.isSome_none, Bool.false_eq_true, if_false] at hstep
  split at hstep
  · split at hstep
    · injection hstep with h
      rw [← h]
    · cases hstep
  · injection hstep with h
    rw [← h]

theorem buildDynstrGo_invariant (dynstr : List Nat) :
    ∀ (l : List (Nat × Nat)) (prev : Nat × Nat) (st stF : DynstrState),
      List.Pairwise (fun a b : Nat × Nat => a.1 < b.1) (prev :: l) →
      (∀ key, (st.index_map.lookup key).isSome → key ≤ prev.1) →
      st.index_map.lookup prev.1 = some st.last_start →
      buildDynstrGo dynstr st prev l = some stF →
      (∀ key, (st.index_map.lookup key).isSome →
        stF.index_map.lookup key = st.index_map.lookup key) ∧
      (∀ key, (stF.index_map.lookup key).isSome →
        key ≤ ((prev :: l).getLast (List.cons_ne_nil prev l)).1) ∧
      stF.index_map.lookup ((prev :: l).getLast (List.cons_ne_nil prev l)).1 =
        some stF.last_start := by
  intro l
  induction l with
  | nil =>
    intro prev st stF hp hdom hprev hgo
    rw [buildDynstrGo] at hgo
    injection hgo with hgo
    subst hgo
    exact ⟨fun _ _ => rfl, hdom, hprev⟩
  | cons c cs ih =>
    intro prev st stF hp hdom hprev hgo
    have hlt : prev.1 < c.1 := (List.pairwise_cons.1 hp).1 c (List.mem_cons_self c cs)
    rw [buildDynstrGo] at hgo
    cases hstep : buildDynstrStep dynstr st prev c with
    | none => rw [hstep] at hgo; cases hgo
    | some st1 =>
      rw [hstep] at hgo
      simp only at hgo
      have hskip : st.index_map.lookup c.1 = none := by
        cases hlk : st.index_map.lookup c.1 with
        | none => rfl
        | some v =>
          have : c.1 ≤ prev.1 := hdom c.1 (by rw [hlk]; rfl)
          omega
      have hmap : st1.index_map = (c.1, st1.last_start) :: st.index_map :=
        buildDynstrStep_map dynstr st st1 prev c hskip hstep
      have hstab1 : ∀ key, (st.index_map.lookup key).isSome →
          st1.index_map.lookup key = st.index_map.lookup key := by
        intro key hk
        have hkle : key ≤ prev.1 := hdom key hk
        rw [hmap, List.lookup_cons]
        have : (key == c.1) = false := by
          simp only [beq_eq_false_iff_ne, ne_eq]
          omega
        rw [this]
      have hdom1 : ∀ key, (st1.index_map.lookup key).isSome → key ≤ c.1 := by
        intro key hk
        rw [hmap, List.lookup_cons] at hk
        cases hbe : (key == c.1) with
        | true =>
          have := beq_iff_eq.1 hbe
          omega
        | false =>
          rw [hbe] at hk
          have := hdom key hk
          omega
      have hprev1 : st1.index_map.lookup c.1 = some st1.last_start := by
        rw [hmap]
        exact List.lookup_cons_self
      rcases ih c st1 stF (List.pairwise_cons.1 hp).2 hdom1 hprev1 hgo with
        ⟨hstab2, hdom2, hlast2⟩
      refine ⟨?_, ?_, ?_⟩
      · intro key hk
        rw [hstab2 key (by rw [hstab1 key hk]; exact hk), hstab1 key hk]
      · intro key hk
        rw [List.getLast_cons (List.cons_ne_nil c cs)]
        exact hdom2 key hk
      · rw [List.getLast_cons (List.cons_ne_nil c cs)]
        exact hlast2

/-- The walk, started at a state whose map already sends the previous range's
start `ps` to `last_start` and binds only keys `≤ ps`, maps a suffix-alias
range `(s, e)` to `m + (s - ps)` where `m` is the target of `ps` — and both
bindings survive to the final state. -/
theorem dynstr_alias_tail (dynstr : List Nat) (suf : List (Nat × Nat))
    (ps pe s e : Nat) (st1 stF : DynstrState)
    (hp : List.Pairwise (fun a b : Nat × Nat => a.1 < b.1) ((ps, pe) :: (s, e) :: suf))
    (halias : s < pe) (hsuffix : e = pe)
    (hdom : ∀ key, (st1.index_map.lookup key).isSome → key ≤ ps)
    (hprev : st1.index_map.lookup ps = some st1.last_start)
    (hgo : buildDynstrGo dynstr st1 (ps, pe) ((s, e) :: suf) = some stF) :
    ∃ m, stF.index_map.lookup ps = some m ∧
      stF.index_map.lookup s = some (m + (s - ps)) := by
  have hlt : ps < s := (List.pairwise_cons.1 hp).1 (s, e) (List.mem_cons_self _ suf)
  have hskip : st1.index_map.lookup s = none := by
    cases hlk : st1.index_map.lookup s with
    | none => rfl
    | some v =>
      have : s ≤ ps := hdom s (by rw [hlk]; rfl)
      omega
  rw [buildDynstrGo] at hgo
  have hstep : buildDynstrStep dynstr st1 (ps, pe) (s, e) =
      some { st1 with
        last_start := st1.last_start + (s - ps),
        index_map := (s, st1.last_start + (s - ps)) :: st1.index_map } := by
    rw [buildDynstrStep, hskip]
    simp only [Option.isSome_none, Bool.false_eq_true, if_false]
    rw [if_pos (show s < pe from halias), if_pos (show pe = e from hsuffix.symm)]
  rw [hstep] at hgo
  simp only at hgo
  set st2 : DynstrState := { st1 with
    last_start := st1.last_start + (s - ps),
    index_map := (s, st1.last_start + (s - ps)) :: st1.index_map } with hst2
  have hdom2 : ∀ key, (st2.index_map.lookup key).isSome → key ≤ s := by
    intro key hk
    rw [hst2] at hk
    simp only [List.lookup_cons] at hk
    cases hbe : (key == s) with
    | true =>
      have := beq_iff_eq.1 hbe
      omega
    | false =>
      rw [hbe] at hk
      have := hdom key hk
      omega
  have hprev2 : st2.index_map.lookup s = some st2.last_start := by
    rw [hst2]
    exact List.lookup_cons_self
  rcases buildDynstrGo_invariant dynstr suf (s, e) st2 stF
      (List.pairwise_cons.1 hp).2 hdom2 hprev2 hgo with ⟨hstab, -, -⟩
  have hps2 : st2.index_map.lookup ps = some st1.last_start := by
    rw [hst2]
    simp only [List.lookup_cons]
    have : (ps == s) = false := by
      simp only [beq_eq_false_iff_ne, ne_eq]
      omega
    rw [this]
    exact hprev
  refine ⟨st1.last_start, ?_, ?_⟩
  · rw [hstab ps (by rw [hps2]; rfl)]
    exact hps2
  · rw [hstab s (by rw [hprev2]; rfl), hprev2]

/-- **C3.**  During `.dynstr` compaction, for every surviving live range
`(s, e)` that lies inside the previous range in ascending-start order
(`s < prev_end` and `e == prev_end`), the old→new offset map produced by
`_build_new_dynstr` sends `s` to the new start assigned to the previous range
plus `(s − prev_start)` — the first conjunct, where `m` is the previous
range's target — and the alias step appends no new bytes to the rewritten
string table for that range (second conjunct: the step taken for `(s, e)`
leaves `out_bytes` and the write cursor `last_end` unchanged). -/
theorem dynstr_suffix_alias_mapping (dynstr : List Nat)
    (pre suf : List (Nat × Nat)) (ps pe s e : Nat)
    (hsorted : List.Pairwise (fun a b : Nat × Nat => a.1 < b.1)
      (pre ++ (ps, pe) :: (s, e) :: suf))
    (halias : s < pe) (hsuffix : e = pe)
    (out : List Nat) (imap : List (Nat × Nat))
    (hrun : build_new_dynstr dynstr (pre ++ (ps, pe) :: (s, e) :: suf) =
      some (out, imap)) :
    (∃ m, imap.lookup ps = some m ∧ imap.lookup s = some (m + (s - ps))) ∧
    (∀ st : DynstrState, st.index_map.lookup s = none →
      buildDynstrStep dynstr st (ps, pe) (s, e) =
        some { st with
          last_start := st.last_start + (s - ps),
          index_map := (s, st.last_start + (s - ps)) :: st.index_map }) := by
  constructor
  · cases pre with
    | nil =>
      simp only [List.nil_append] at hsorted hrun
      rw [build_new_dynstr] at hrun
      rcases Option.map_eq_some'.1 hrun with ⟨stF, hgo, hout⟩
      have himap : imap = stF.index_map := by
        injection hout with h1 h2
        rw [← h2]
      rw [himap]
      apply dynstr_alias_tail dynstr suf ps pe s e _ stF hsorted halias hsuffix _ _ hgo
      · intro key hk
        simp only [List.lookup_cons] at hk
        cases hbe : (key == ps) with
        | true =>
          have := beq_iff_eq.1 hbe
          omega
        | false =>
          rw [hbe] at hk
          cases hk
      · exact List.lookup_cons_self
    | cons f0 mid =>
      simp only [List.cons_append] at hsorted hrun
      rw [build_new_dynstr] at hrun
      rcases Option.map_eq_some'.1 hrun with ⟨stF, hgo, hout⟩
      have himap : imap = stF.index_map := by
        injection hout with h1 h2
        rw [← h2]
      rw [himap]
      rw [List.append_cons mid (ps, pe) ((s, e) :: suf),
        buildDynstrGo_append] at hgo
      rcases Option.bind_eq_some.1 hgo with ⟨st1, hgo1, hgo2⟩
      have hlast : ((f0 :: (mid ++ [(ps, pe)])).getLast
          (List.cons_ne_nil f0 (mid ++ [(ps, pe)]))) = (ps, pe) :=
        List.getLast_concat (f0 :: mid)
      rw [hlast] at hgo2
      have hsub1 : List.Pairwise (fun a b : Nat × Nat => a.1 < b.1)
          (f0 :: (mid ++ [(ps, pe)])) := by
        refine hsorted.sublist ?_
        rw [show f0 :: (mid ++ [(ps, pe)]) = (f0 :: mid) ++ [(ps, pe)] from rfl,
          show f0 :: (mid ++ (ps, pe) :: (s, e) :: suf) =
            (f0 :: mid) ++ ((ps, pe) :: (s, e) :: suf) from rfl]
        exact List.Sublist.append_left
          (List.cons_sublist_cons.2 (List.nil_sublist _)) (f0 :: mid)
      rcases buildDynstrGo_invariant dynstr (mid ++ [(ps, pe)]) f0
          { index_map := [(f0.1, f0.1)], out_bytes := [0],
            last_start := f0.1, last_end := f0.2 } st1 hsub1
          (by
            intro key hk
            simp only [List.lookup_cons] at hk
            cases hbe : (key == f0.1) with
            | true =>
              have := beq_iff_eq.1 hbe
              omega
            | false =>
              rw [hbe] at hk
              cases hk)
          List.lookup_cons_self hgo1 with ⟨-, hdom1, hprev1⟩
      rw [hlast] at hdom1 hprev1
      have hsub2 : List.Pairwise (fun a b : Nat × Nat => a.1 < b.1)
          ((ps, pe) :: (s, e) :: suf) := by
        refine hsorted.sublist ?_
        rw [show f0 :: (mid ++ (ps, pe) :: (s, e) :: suf) =
          (f0 :: mid) ++ ((ps, pe) :: (s, e) :: suf) from rfl]
        exact List.sublist_append_right (f0 :: mid) _
      exact dynstr_alias_tail dynstr suf ps pe s e st1 stF hsub2 halias hsuffix
        hdom1 hprev1 hgo2
  · intro st hskip
    rw [buildDynstrStep, hskip]
    simp only [Option.isSome_none, Bool.false_eq_true, if_false]
    rw [if_pos (show s < pe from halias), if_pos (show pe = e from hsuffix.symm)]

/-- Witness for C3: the S2 scenario — `.dynstr` = `"\0getline\0"`, surviving
ranges `(0,0)` (empty string), `(1,8)` (`"getline"`) and its suffix alias
`(4,8)` (`"line"`): the map sends 1 to 1 and 4 to 1 + 3 = 4, and the alias
range contributes no bytes. -/
theorem dynstr_suffix_alias_mapping_witness :
    (4 < 8) ∧
    ((∃ m, (List.lookup 1 [(4, 4), (1, 1), (0, 0)]) = some m ∧
      (List.lookup 4 [(4, 4), (1, 1), (0, 0)]) = some (m + (4 - 1))) ∧
    (∀ st : DynstrState, st.index_map.lookup 4 = none →
      buildDynstrStep [0, 103, 101, 116, 108, 105, 110, 101, 0] st (1, 8) (4, 8) =
        some { st with
          last_start := st.last_start + (4 - 1),
          index_map := (4, st.last_start + (4 - 1)) :: st.index_map })) :=
  ⟨by decide,
    dynstr_suffix_alias_mapping [0, 103, 101, 116, 108, 105, 110, 101, 0]
      [(0, 0)] [] 1 8 4 8 (by decide) (by decide) (by decide)
      [0, 103, 101, 116, 108, 105, 110, 101, 0] [(4, 4), (1, 1), (0, 0)]
      (by decide)⟩

/-! ## C4: rebuilding the SysV `.hash` section (lines 673-791) -/

/-- `_elfhash` (lines 673-683), folded over the name's characters.  Python's
`h = h & ~g` on the 32-bit-masked `h` equals `h &&& (0xFFFFFFFF ^^^ g)`
because `g` is a submask of `0xF0000000` and `h < 2^32`. -/
def elfhash_go : List Char → Nat → Nat
  | [], h => h
  | c :: cs, h =>
    let h1 := ((h <<< 4) + c.toNat) &&& 0xFFFFFFFF
    let g := h1 &&& 0xF0000000
    let h2 := if g ≠ 0 then h1 ^^^ (g >>> 24) else h1
    elfhash_go cs (h2 &&& (0xFFFFFFFF ^^^ g))

def elfhash (func_name : String) : Nat := elfhash_go func_name.data 0

/-- The fixed `options` schedule of `_calc_nbuckets` (lines 724-725). -/
def nbucketsOptions : List Nat :=
  [1, 3, 17, 37, 67, 97, 131, 197, 263, 521, 1031, 2053, 4099,
   8209, 16411, 32771, 65537, 131101, 262147]

/-- `bisect.bisect(a, x)` for an ascending list: the number of leading
elements `≤ x`. -/
def bisect_ins : List Nat → Nat → Nat
  | [], _ => 0
  | a :: rest, x => if a ≤ x then bisect_ins rest x + 1 else 0

/-- `_calc_nbuckets` (lines 723-727): `options[ins_point - 1]`; for
`n_hashes = 0` the insertion point is 0 and Python's `options[-1]` yields the
last element, 262147. -/
def calc_nbuckets (n_hashes : Nat) : Nat :=
  let ins_point := bisect_ins nbucketsOptions n_hashes
  if ins_point = 0 then 262147 else nbucketsOptions.getD (ins_point - 1) 0

theorem bisect_ins_le_length (x : Nat) : ∀ l : List Nat, bisect_ins l x ≤ l.length := by
  intro l
  induction l with
  | nil => exact Nat.le_refl 0
  | cons a rest ih =>
    rw [bisect_ins]
    split
    · simpa using ih
    · simp

theorem bisect_ins_spec (x : Nat) :
    ∀ l : List Nat, List.Pairwise (· ≤ ·) l → 0 < bisect_ins l x →
      l.getD (bisect_ins l x - 1) 0 ≤ x ∧
      l.getD (bisect_ins l x - 1) 0 ∈ l ∧
      ∀ o ∈ l, o ≤ x → o ≤ l.getD (bisect_ins l x - 1) 0 := by
  intro l
  induction l with
  | nil =>
    intro _ h
    cases h
  | cons a rest ih =>
    intro hp hpos
    by_cases ha : a ≤ x
    · rw [bisect_ins, if_pos ha] at hpos ⊢
      by_cases hb : bisect_ins rest x = 0
      · rw [hb]
        refine ⟨ha, List.mem_cons_self a rest, ?_⟩
        intro o ho hox
        rcases List.mem_cons.1 ho with rfl | ho
        · exact Nat.le_refl o
        · exfalso
          cases hr : rest with
          | nil =>
            rw [hr] at ho
            cases ho
          | cons r rs =>
            rw [hr] at hb ho hp
            rw [bisect_ins] at hb
            split at hb
            · omega
            · rename_i hrx
              rcases List.mem_cons.1 ho with rfl | ho
              · exact hrx hox
              · have h1 : r ≤ o := by
                  have := (List.pairwise_cons.1 (List.pairwise_cons.1 hp).2).1 o ho
                  exact this
                exact hrx (Nat.le_trans h1 hox)
      · have hbpos : 0 < bisect_ins rest x := Nat.pos_of_ne_zero hb
        rcases ih (List.pairwise_cons.1 hp).2 hbpos with ⟨h1, h2, h3⟩
        have hidx : bisect_ins rest x + 1 - 1 = (bisect_ins rest x - 1) + 1 := by omega
        rw [hidx]
        simp only [List.getD_cons_succ]
        refine ⟨h1, List.mem_cons_of_mem a h2, ?_⟩
        intro o ho hox
        rcases List.mem_cons.1 ho with rfl | ho
        · exact Nat.le_trans ((List.pairwise_cons.1 hp).1 _ h2) (Nat.le_refl _)
        · exact h3 o ho hox
    · rw [bisect_ins, if_neg ha] at hpos
      cases hpos

theorem calc_nbuckets_spec (n : Nat) (hn : 1 ≤ n) :
    calc_nbuckets n ∈ nbucketsOptions ∧ calc_nbuckets n ≤ n ∧
      ∀ o ∈ nbucketsOptions, o ≤ n → o ≤ calc_nbuckets n := by
  have hpos : 0 < bisect_ins nbucketsOptions n := by
    rw [nbucketsOptions, bisect_ins, if_pos hn]
    exact Nat.succ_pos _
  have hsorted : List.Pairwise (· ≤ ·) nbucketsOptions := by decide
  rcases bisect_ins_spec n nbucketsOptions hsorted hpos with ⟨h1, h2, h3⟩
  have hne : ¬ bisect_ins nbucketsOptions n = 0 := by omega
  rw [calc_nbuckets]
  simp only [if_neg hne]
  exact ⟨h2, h1, h3⟩

/-- The insertion loop of `_recreate_elf_hash` (lines 760-766): for each
symbol index `idx` in ascending table order, `new_chains[idx]` receives the
previous head `new_buckets.get(bucket, 0)` and `idx` becomes the new head
`new_buckets[bucket] = idx`.  Dicts are association lists consed at the front
(first match wins = latest assignment). -/
def sysvLoop (nbuckets : Nat) :
    Nat → List String → List (Nat × Nat) → List (Nat × Nat) →
      (List (Nat × Nat)) × (List (Nat × Nat))
  | _, [], b, c => (b, c)
  | idx, name :: rest, b, c =>
    let bucket := elfhash name % nbuckets
    sysvLoop nbuckets (idx + 1) rest ((bucket, idx) :: b)
      ((idx, (b.lookup bucket).getD 0) :: c)

/-- The parameters `_recreate_elf_hash` (lines 739-791) computes and writes:
`nchains` shrinks by the removed count (line 757), `nbuckets` comes from the
schedule (line 758), buckets/chains from the insertion loop, and the section
size is set to `(2 + nchains + nbuckets) * 4` (lines 790-791). -/
structure ElfHashResult where
  nbuckets : Nat
  nchains : Nat
  buckets : List (Nat × Nat)
  chains : List (Nat × Nat)
  sh_size : Nat
  deriving Repr, DecidableEq

def recreate_elf_hash (names : List String) (old_nchains n_removed_syms : Nat) :
    ElfHashResult :=
  let nchains := old_nchains - n_removed_syms
  let nbuckets := calc_nbuckets nchains
  let bc := sysvLoop nbuckets 0 names [] []
  { nbuckets := nbuckets, nchains := nchains, buckets := bc.1, chains := bc.2,
    sh_size := (2 + nchains + nbuckets) * 4 }

/-- The head of bucket `bkt` after inserting symbol indices `0, …, n-1` in
ascending order: the greatest `j < n` whose name hashes into `bkt`, or 0 when
the bucket is empty. -/
def prevHeadIdx (names : List String) (nb bkt n : Nat) : Nat :=
  (((List.range n).filter
    (fun j => elfhash (names.getD j "") % nb == bkt)).getLast?).getD 0

theorem sysvLoop_append (nb : Nat) :
    ∀ (l1 l2 : List String) (k : Nat) (b c : List (Nat × Nat)),
      sysvLoop nb k (l1 ++ l2) b c =
        sysvLoop nb (k + l1.length) l2 (sysvLoop nb k l1 b c).1
          (sysvLoop nb k l1 b c).2 := by
  intro l1
  induction l1 with
  | nil =>
    intro l2 k b c
    simp [sysvLoop]
  | cons name rest ih =>
    intro l2 k b c
    rw [List.cons_append, sysvLoop, sysvLoop, ih]
    simp only [List.length_cons]
    congr 1
    omega

theorem prevHeadIdx_congr (names : List String) (x : String) (nb bkt : Nat) :
    ∀ n, n ≤ names.length →
      prevHeadIdx (names ++ [x]) nb bkt n = prevHeadIdx names nb bkt n := by
  intro n hn
  unfold prevHeadIdx
  congr 1
  congr 1
  apply List.filter_congr
  intro j hj
  have hjn : j < names.length := by
    have := List.mem_range.1 hj
    omega
  rw [List.getD_append _ _ _ _ hjn]

theorem prevHeadIdx_snoc (names : List String) (x : String) (nb bkt : Nat) :
    prevHeadIdx (names ++ [x]) nb bkt (names.length + 1) =
      if elfhash x % nb = bkt then names.length
      else prevHeadIdx names nb bkt names.length := by
  have hx : (names ++ [x]).getD names.length "" = x := by
    rw [List.getD_append_right _ _ _ _ (Nat.le_refl _)]
    simp
  unfold prevHeadIdx
  rw [List.range_succ, List.filter_append]
  by_cases hb : elfhash x % nb = bkt
  · rw [if_pos hb]
    have : List.filter
        (fun j => elfhash ((names ++ [x]).getD j "") % nb == bkt)
        [names.length] = [names.length] := by
      simp only [List.filter_cons, List.filter_nil]
      rw [hx]
      simp [hb]
    rw [this, List.getLast?_concat]
    rfl
  · rw [if_neg hb]
    have : List.filter
        (fun j => elfhash ((names ++ [x]).getD j "") % nb == bkt)
        [names.length] = [] := by
      simp only [List.filter_cons, List.filter_nil]
      rw [hx]
      simp [hb]
    rw [this, List.append_nil]
    have := prevHeadIdx_congr names x nb bkt names.length (Nat.le_refl _)
    unfold prevHeadIdx at this
    exact this

theorem sysvLoop_characterization (nb : Nat) :
    ∀ names : List String,
      (∀ bkt, (((sysvLoop nb 0 names [] []).1).lookup bkt).getD 0 =
        prevHeadIdx names nb bkt names.length) ∧
      (∀ i, i < names.length →
        (((sysvLoop nb 0 names [] []).2).lookup i).getD 0 =
          prevHeadIdx names nb (elfhash (names.getD i "") % nb) i) := by
  intro names
  induction names using List.reverseRecOn with
  | nil =>
    constructor
    · intro bkt
      simp [sysvLoop, prevHeadIdx]
    · intro i hi
      cases hi
  | append_singleton names x ih =>
    have hsplit := sysvLoop_append nb names [x] 0 [] []
    have hstep : ∀ b c : List (Nat × Nat),
        sysvLoop nb names.length [x] b c =
          ((elfhash x % nb, names.length) :: b,
            (names.length, (b.lookup (elfhash x % nb)).getD 0) :: c) := by
      intro b c
      rw [sysvLoop, sysvLoop]
    rw [Nat.zero_add] at hsplit
    constructor
    · intro bkt
      rw [hsplit, hstep]
      simp only [List.lookup_cons, List.length_append, List.length_singleton]
      cases hbe : (bkt == elfhash x % nb) with
      | true =>
        have hbk : elfhash x % nb = bkt := (beq_iff_eq.1 hbe).symm
        rw [prevHeadIdx_snoc, if_pos hbk]
        rfl
      | false =>
        have hbk : ¬ elfhash x % nb = bkt := by
          intro h
          rw [← h] at hbe
          simp at hbe
        rw [prevHeadIdx_snoc, if_neg hbk]
        exact ih.1 bkt
    · intro i hi
      rw [hsplit, hstep]
      simp only [List.lookup_cons, List.length_append, List.length_singleton] at hi ⊢
      by_cases hieq : i = names.length
      · subst hieq
        rw [show (names.length == names.length) = true from beq_self_eq_true _]
        simp only [Option.getD_some]
        have hx : (names ++ [x]).getD names.length "" = x := by
          rw [List.getD_append_right _ _ _ _ (Nat.le_refl _)]
          simp
        rw [hx, ih.1 (elfhash x % nb),
          prevHeadIdx_congr names x nb (elfhash x % nb) names.length (Nat.le_refl _)]
      · have hilt : i < names.length := by omega
        rw [show (i == names.length) = false from beq_eq_false_iff_ne.2 hieq]
        have hgd : (names ++ [x]).getD i "" = names.getD i "" :=
          List.getD_append _ _ _ _ hilt
        rw [hgd, ih.2 i hilt,
          prevHeadIdx_congr names x nb (elfhash (names.getD i "") % nb) i
            (Nat.le_of_lt hilt)]

/-- **C4.**  Rebuilding SysV `.hash` from a post-edit `.dynsym` of `n_chains`
symbols (`n_chains = old nchains − removed`, equal to the new table length)
chooses `nbuckets` as the largest value of the fixed schedule that is
`≤ n_chains`; inserting each surviving symbol index `i` in ascending order
sets `chains[i]` to the previous head of bucket `elf_hash(name) % nbuckets`
(the greatest smaller index hashing to the same bucket, 0 for an empty
bucket) and makes `i` the new head (so `buckets[b]` ends as the greatest index
hashing to `b`); the section size is set to `(2 + nbuckets + nchain) * 4`
bytes. -/
theorem elf_hash_rebuild (names : List String) (old_nchains n_removed_syms : Nat)
    (hn : old_nchains - n_removed_syms = names.length)
    (hpos : 1 ≤ names.length) :
    ((recreate_elf_hash names old_nchains n_removed_syms).nbuckets ∈ nbucketsOptions ∧
      (recreate_elf_hash names old_nchains n_removed_syms).nbuckets ≤
        (recreate_elf_hash names old_nchains n_removed_syms).nchains ∧
      ∀ o ∈ nbucketsOptions,
        o ≤ (recreate_elf_hash names old_nchains n_removed_syms).nchains →
        o ≤ (recreate_elf_hash names old_nchains n_removed_syms).nbuckets) ∧
    (∀ bkt, (((recreate_elf_hash names old_nchains n_removed_syms).buckets).lookup
        bkt).getD 0 =
      prevHeadIdx names (recreate_elf_hash names old_nchains n_removed_syms).nbuckets
        bkt names.length) ∧
    (∀ i, i < names.length →
      (((recreate_elf_hash names old_nchains n_removed_syms).chains).lookup i).getD 0 =
        prevHeadIdx names (recreate_elf_hash names old_nchains n_removed_syms).nbuckets
          (elfhash (names.getD i "") %
            (recreate_elf_hash names old_nchains n_removed_syms).nbuckets) i) ∧
    (recreate_elf_hash names old_nchains n_removed_syms).sh_size =
      (2 + (recreate_elf_hash names old_nchains n_removed_syms).nbuckets +
        (recreate_elf_hash names old_nchains n_removed_syms).nchains) * 4 := by
  have hc := sysvLoop_characterization (calc_nbuckets (old_nchains - n_removed_syms)) names
  have hs := calc_nbuckets_spec (old_nchains - n_removed_syms) (by omega)
  unfold recreate_elf_hash
  simp only
  exact ⟨⟨hs.1, hs.2.1, hs.2.2⟩, hc.1, hc.2, by ring⟩

/-- Witness for C4: three surviving symbols (`n_chains = 5 − 2 = 3`,
`nbuckets = 3`). -/
theorem elf_hash_rebuild_witness :
    (5 - 2 = List.length ["", "abc", "xyz"]) ∧
    (((recreate_elf_hash ["", "abc", "xyz"] 5 2).nbuckets ∈ nbucketsOptions ∧
      (recreate_elf_hash ["", "abc", "xyz"] 5 2).nbuckets ≤
        (recreate_elf_hash ["", "abc", "xyz"] 5 2).nchains ∧
      ∀ o ∈ nbucketsOptions,
        o ≤ (recreate_elf_hash ["", "abc", "xyz"] 5 2).nchains →
        o ≤ (recreate_elf_hash ["", "abc", "xyz"] 5 2).nbuckets) ∧
    (∀ bkt, (((recreate_elf_hash ["", "abc", "xyz"] 5 2).buckets).lookup bkt).getD 0 =
      prevHeadIdx ["", "abc", "xyz"] (recreate_elf_hash ["", "abc", "xyz"] 5 2).nbuckets
        bkt (List.length ["", "abc", "xyz"])) ∧
    (∀ i, i < List.length ["", "abc", "xyz"] →
      (((recreate_elf_hash ["", "abc", "xyz"] 5 2).chains).lookup i).getD 0 =
        prevHeadIdx ["", "abc", "xyz"]
          (recreate_elf_hash ["", "abc", "xyz"] 5 2).nbuckets
          (elfhash (List.getD ["", "abc", "xyz"] i "") %
            (recreate_elf_hash ["", "abc", "xyz"] 5 2).nbuckets) i) ∧
    (recreate_elf_hash ["", "abc", "xyz"] 5 2).sh_size =
      (2 + (recreate_elf_hash ["", "abc", "xyz"] 5 2).nbuckets +
        (recreate_elf_hash ["", "abc", "xyz"] 5 2).nchains) * 4) :=
  ⟨by decide, elf_hash_rebuild ["", "abc", "xyz"] 5 2 (by decide) (by decide)⟩

/-! ## C5: editing `.gnu.hash` (`_batch_remove_gnu_hashtable`, lines 804-935) -/

/-- `_gnuhash` (lines 685-690): `h = ((h << 5) + h + c) & 0xFFFFFFFF` from
5381. -/
def gnuhash_go : List Char → Nat → Nat
  | [], h => h
  | c :: cs, h => gnuhash_go cs (((h <<< 5) + h + c.toNat) &&& 0xFFFFFFFF)

def gnuhash (func_name : String) : Nat := gnuhash_go func_name.data 5381

/-- The `.gnu.hash` parameters the batch edit reads and writes (the bloom
filter is left intact and not modelled). -/
structure GnuHashParams where
  nbuckets : Nat
  symoffset : Nat
  buckets : List Nat
  chains : List Nat
  deriving Repr, DecidableEq

/-- `_edit_gnu_hashtable` (lines 906-935).  `none` stands for the raised
exceptions: a negative `sym_nr` (lines 910-911), the hash disagreement
(lines 915-916, `x & ~1` on naturals compares `x / 2`), and Python
`IndexError`s on out-of-range chain reads. -/
def edit_gnu_hashtable (dynsym_nr func_hash : Nat) (p : GnuHashParams) :
    Option GnuHashParams :=
  if dynsym_nr < p.symoffset then none
  else
    let sym_nr := dynsym_nr - p.symoffset
    match p.chains.get? sym_nr with
    | none => none
    | some bucket_hash =>
      if bucket_hash / 2 ≠ func_hash / 2 then none
      else
        let chains := p.chains.eraseIdx sym_nr
        if bucket_hash % 2 = 1 then
          let bucket := func_hash % p.nbuckets
          if sym_nr ≠ 0 then
            match chains.get? (sym_nr - 1) with
            | none => none
            | some prev =>
              if prev % 2 = 1 then
                some { p with chains := chains, buckets := p.buckets.set bucket 0 }
              else
                some { p with chains := chains.set (sym_nr - 1) (prev ||| 1) }
          else
            some { p with chains := chains, buckets := p.buckets.set bucket 0 }
        else
          some { p with chains := chains }

/-- The bucket-index fixup loop (lines 851-861), walking `max_idx` from
`nbuckets - 1` down: skip the removed symbols whose bucket is `≥ max_idx`
(they are sorted descending), break when none are left, and subtract the
remaining count from `buckets[max_idx]` clamped at 0 (`max(0, ...)` is
natural subtraction). -/
def fixBuckets : Nat → List Nat → List Nat → List Nat
  | 0, _, buckets => buckets
  | m + 1, func_buckets, buckets =>
    let fbs := func_buckets.dropWhile (fun fb => m ≤ fb)
    if fbs.length = 0 then buckets
    else fixBuckets m fbs (buckets.set m (buckets.getD m 0 - fbs.length))

/-- The trailing-bucket zeroing loop (lines 865-868): clear buckets from the
top while their start equals the new number of hashed symbols.  (If every
bucket matched, Python would wrap to `buckets[-1]`; the model stops at index 0
— unreachable under the theorems' hypothesis that bucket values stay below
`dynsym_size`.) -/
def zeroTail (target : Nat) : Nat → List Nat → List Nat
  | 0, buckets => buckets
  | m + 1, buckets =>
    if buckets.getD m 0 = target then zeroTail target m (buckets.set m 0)
    else buckets

/-- `_batch_remove_gnu_hashtable` (lines 804-894), on the parameters: split
the removed symbols into undefined (`st_value = 0`, `st_size = 0`, index
below `symoffset`) and defined, reject defined bucket numbers not in
descending order (`sorted(func_buckets, reverse=True) != func_buckets`,
lines 838-839 — for a stable sort that equality holds exactly for
nonincreasing lists), run the chain edits, fix the bucket indices, zero the
tail, and finally subtract `len(undef_symbols)` from every bucket
(`max(0, ·)`, lines 876-877) and from `symoffset` (line 878). -/
def batch_remove_gnu_hashtable (symbol_list : List SymbolWrapper)
    (dynsym_size : Nat) (p : GnuHashParams) : Option GnuHashParams :=
  let parts := symbol_list.partition
    (fun s => s.value = 0 ∧ s.size = 0 ∧ s.index < p.symoffset)
  let undef_symbols := parts.1
  let defined_symbols := parts.2
  let func_hashes := defined_symbols.map (fun s => gnuhash s.name)
  let func_buckets := func_hashes.map (fun h => h % p.nbuckets)
  if ¬ List.Chain' (fun a b => b ≤ a) func_buckets then none
  else
    match (defined_symbols.zip func_hashes).foldlM
        (fun q sh => edit_gnu_hashtable sh.1.index sh.2 q) p with
    | none => none
    | some p1 =>
      let b2 := fixBuckets p.nbuckets func_buckets p1.buckets
      let b3 := zeroTail (dynsym_size - defined_symbols.length) p.nbuckets b2
      some { p1 with
        buckets := b3.map (fun b => b - undef_symbols.length),
        symoffset := p1.symoffset - undef_symbols.length }

theorem fixBuckets_nil : ∀ (m : Nat) (buckets : List Nat),
    fixBuckets m [] buckets = buckets := by
  intro m
  cases m with
  | zero => intro _; rfl
  | succ m' =>
    intro buckets
    rw [fixBuckets]
    simp [List.dropWhile]

theorem zeroTail_no_op (target : Nat) (buckets : List Nat) (m : Nat)
    (hm : m ≤ buckets.length) (h : ∀ b ∈ buckets, b ≠ target) :
    zeroTail target m buckets = buckets := by
  cases m with
  | zero => rfl
  | succ m' =>
    rw [zeroTail]
    have hmem : buckets.getD m' 0 ∈ buckets := by
      rw [List.getD_eq_getElem _ _ (by omega)]
      exact List.getElem_mem _
    rw [if_neg (h _ hmem)]

theorem nodup_lt_length_le (l : List Nat) (n : Nat) (hnd : l.Nodup)
    (hlt : ∀ x ∈ l, x < n) : l.length ≤ n := by
  have h1 : l.toFinset.card = l.length := List.toFinset_card_of_nodup hnd
  have h2 : l.toFinset ⊆ Finset.range n := by
    intro x hx
    rw [Finset.mem_range]
    exact hlt x (List.mem_toFinset.1 hx)
  have h3 := Finset.card_le_card h2
  rw [Finset.card_range] at h3
  omega

/-- **C5.**  When removing symbols from `.gnu.hash`, every removed symbol
classified as undefined (`st_value = 0`, `st_size = 0`, index `< symoffset`)
causes `symoffset` to decrease by the number of undefined removals and every
bucket's start index to decrease by that same number, clamped at 0
(`max(0, b - u)` is natural subtraction): for a batch consisting entirely of
undefined symbols with distinct indices, the defined-symbol phases are
no-ops and the result subtracts the batch size from `symoffset` (which it
cannot underflow, since the distinct indices all lie below it) and from every
bucket. -/
theorem gnu_hash_undefined_removals (symbol_list : List SymbolWrapper)
    (dynsym_size : Nat) (p : GnuHashParams)
    (hall : ∀ s ∈ symbol_list, s.value = 0 ∧ s.size = 0 ∧ s.index < p.symoffset)
    (hnodup : (symbol_list.map (fun s => s.index)).Nodup)
    (hbval : ∀ b ∈ p.buckets, b < dynsym_size)
    (hblen : p.buckets.length = p.nbuckets) :
    batch_remove_gnu_hashtable symbol_list dynsym_size p =
      some { p with
        buckets := p.buckets.map (fun b => b - symbol_list.length),
        symoffset := p.symoffset - symbol_list.length } ∧
    symbol_list.length ≤ p.symoffset := by
  constructor
  · have hpart : symbol_list.partition
        (fun s => s.value = 0 ∧ s.size = 0 ∧ s.index < p.symoffset) =
        (symbol_list, []) := by
      rw [List.partition_eq_filter_filter]
      simp only [Prod.mk.injEq]
      constructor
      · rw [List.filter_eq_self]
        intro a ha
        simpa using hall a ha
      · rw [List.filter_eq_nil_iff]
        intro a ha
        simpa using hall a ha
    have hzt : zeroTail (dynsym_size - 0) p.nbuckets p.buckets = p.buckets := by
      rw [Nat.sub_zero]
      exact zeroTail_no_op dynsym_size p.buckets p.nbuckets (by omega)
        (fun b hb => by have := hbval b hb; omega)
    rw [batch_remove_gnu_hashtable]
    simp only [hpart, List.map_nil, List.zip_nil_right, List.foldlM_nil,
      List.chain'_nil, not_true_eq_false, if_false, fixBuckets_nil,
      List.length_nil, hzt]
  · have h := nodup_lt_length_le (symbol_list.map (fun s => s.index)) p.symoffset hnodup
      (by
        intro x hx
        rcases List.mem_map.1 hx with ⟨s, hs, rfl⟩
        exact (hall s hs).2.2)
    simpa using h

/-- Witness for C5: the S6 scenario — one undefined symbol at `.dynsym` index
3 with `symoffset = 5`; `symoffset` drops to 4 and both buckets shift down by
one. -/
theorem gnu_hash_undefined_removals_witness :
    (∀ s ∈ [(⟨"u", 3, 0, 0, 0, 0⟩ : SymbolWrapper)],
      s.value = 0 ∧ s.size = 0 ∧
        s.index < (⟨2, 5, [5, 7], [8, 9]⟩ : GnuHashParams).symoffset) ∧
    (batch_remove_gnu_hashtable [⟨"u", 3, 0, 0, 0, 0⟩] 9 ⟨2, 5, [5, 7], [8, 9]⟩ =
      some { (⟨2, 5, [5, 7], [8, 9]⟩ : GnuHashParams) with
        buckets := (⟨2, 5, [5, 7], [8, 9]⟩ : GnuHashParams).buckets.map
          (fun b => b - List.length [(⟨"u", 3, 0, 0, 0, 0⟩ : SymbolWrapper)]),
        symoffset := (⟨2, 5, [5, 7], [8, 9]⟩ : GnuHashParams).symoffset -
          List.length [(⟨"u", 3, 0, 0, 0, 0⟩ : SymbolWrapper)] } ∧
      List.length [(⟨"u", 3, 0, 0, 0, 0⟩ : SymbolWrapper)] ≤
        (⟨2, 5, [5, 7], [8, 9]⟩ : GnuHashParams).symoffset) :=
  ⟨by decide,
    gnu_hash_undefined_removals [⟨"u", 3, 0, 0, 0, 0⟩] 9 ⟨2, 5, [5, 7], [8, 9]⟩
      (by decide) (by decide) (by decide) (by decide)⟩

/-! ## C10: `get_function_addresses` / `get_keep_list` (lines 1394-1449) -/

/-- Python dict assignment `d[k] = v` on an ordered dict model: overwrite in
place, else append. -/
def dictUpsert (d : List (Nat × Nat)) (k v : Nat) : List (Nat × Nat) :=
  if d.any (fun q => q.1 == k) then
    d.map (fun q => if q.1 == k then (k, v) else q)
  else d ++ [(k, v)]

/-- `get_function_addresses` (lines 1394-1406): `(st_value, st_size)` pairs
from the dynsym collection (skipping entries with `value = 0 ∧ size = 0`),
overridden by the local-function pairs, sorted by address
(`OrderedDict(sorted(addr_dict.items()))`; keys are unique, so sorting the
pairs lexicographically equals sorting by key). -/
def get_function_addresses (collection_dynsym : List SymbolWrapper)
    (local_functions : List (Nat × Nat)) : List (Nat × Nat) :=
  let d := collection_dynsym.foldl
    (fun d ent => if ent.value = 0 ∧ ent.size = 0 then d
      else dictUpsert d ent.value ent.size) []
  let d := local_functions.foldl (fun d q => dictUpsert d q.1 q.2) d
  d.insertionSort (fun a b => a.1 ≤ b.1)

/-- The range-building loop of `get_keep_list` (lines 1431-1448): `cur` is the
open range's start (`ranges[index]`); a removed function at `start` of
nonzero size closes the open range at `start` and opens a new one at
`start + size`; `if next_start == end: continue` skips size-0 functions; the
last open range is closed at `total_size`. -/
def keepListGo (total_size : Nat) : Nat → List (Nat × Nat) → List (List Nat)
  | cur, [] => [[cur, total_size]]
  | cur, (start, size) :: rest =>
    if start + size = start then keepListGo total_size cur rest
    else [cur, start] :: keepListGo total_size (start + size) rest

/-- `get_keep_list` (lines 1426-1449). -/
def get_keep_list (collection_dynsym : List SymbolWrapper)
    (local_functions : List (Nat × Nat)) (total_size : Nat) : List (List Nat) :=
  keepListGo total_size 0 (get_function_addresses collection_dynsym local_functions)

/-- The ordering the claim asserts of the output: within each `[start, end]`
pair `start ≤ end`, and each range ends no later than the next begins. -/
def keepListAscending (ranges : List (List Nat)) : Prop :=
  List.Chain' (fun r1 r2 => r1.getD 1 0 ≤ r2.getD 0 0) ranges ∧
  ∀ r ∈ ranges, r.getD 0 0 ≤ r.getD 1 0

/-- **C10, counterexample.**  For overlapping removed functions — `(10, 20)`
and `(15, 2)` — the loop emits the range `[30, 15]` whose start exceeds its
end and exceeds the following range's start, so the output is not a list of
ranges in ascending order as the claim states for *every* collected set. -/
theorem get_keep_list_counterexample :
    get_keep_list [⟨"f", 0, 0, 10, 20, 0⟩, ⟨"g", 1, 0, 15, 2, 0⟩] [] 100 =
      [[0, 10], [30, 15], [17, 100]] ∧
    ¬ keepListAscending
      (get_keep_list [⟨"f", 0, 0, 10, 20, 0⟩, ⟨"g", 1, 0, 15, 2, 0⟩] [] 100) := by
  have h1 : get_keep_list [⟨"f", 0, 0, 10, 20, 0⟩, ⟨"g", 1, 0, 15, 2, 0⟩] [] 100 =
      [[0, 10], [30, 15], [17, 100]] := by decide
  refine ⟨h1, ?_⟩
  intro h
  rw [h1] at h
  have h2 := h.2 [30, 15] (by simp)
  simp [List.getD] at h2

theorem keepListGo_spec (total : Nat) :
    ∀ (l : List (Nat × Nat)) (cur : Nat),
      List.Pairwise (fun q1 q2 : Nat × Nat => q1.1 + q1.2 ≤ q2.1)
        (l.filter (fun q => q.2 ≠ 0)) →
      (∀ q ∈ l, q.2 ≠ 0 → cur ≤ q.1) →
      (∀ q ∈ l, q.2 ≠ 0 → q.1 + q.2 ≤ total) →
      cur ≤ total →
      (∃ y t, keepListGo total cur l = [cur, y] :: t) ∧
      ((keepListGo total cur l).getLast?.getD []).getD 1 0 = total ∧
      keepListAscending (keepListGo total cur l) ∧
      (∀ pr ∈ (keepListGo total cur l).zip (keepListGo total cur l).tail,
        (pr.1.getD 1 0, pr.2.getD 0 0) ∈
          (l.filter (fun q => q.2 ≠ 0)).map (fun q => (q.1, q.1 + q.2))) ∧
      (keepListGo total cur l).length = (l.filter (fun q => q.2 ≠ 0)).length + 1 := by
  intro l
  induction l with
  | nil =>
    intro cur _ _ _ hct
    refine ⟨⟨total, [], rfl⟩, rfl, ⟨?_, ?_⟩, ?_, rfl⟩
    · exact List.chain'_singleton _
    · intro r hr
      rcases List.mem_singleton.1 hr with rfl
      simpa using hct
    · intro pr hpr
      simp [keepListGo] at hpr
  | cons q rest ih =>
    rcases q with ⟨a, s⟩
    intro cur hpair hcur hbound hct
    by_cases hs : s = 0
    · have hskip : a + s = a := by omega
      have hfeq : ((a, s) :: rest).filter (fun q => q.2 ≠ 0) =
          rest.filter (fun q => q.2 ≠ 0) := by
        rw [List.filter_cons]
        simp [hs]
      rw [keepListGo, if_pos hskip]
      rw [hfeq] at hpair ⊢
      exact ih cur hpair (fun q hq => hcur q (List.mem_cons_of_mem _ hq))
        (fun q hq => hbound q (List.mem_cons_of_mem _ hq)) hct
    · have hskip : ¬ a + s = a := by omega
      have hfeq : ((a, s) :: rest).filter (fun q => q.2 ≠ 0) =
          (a, s) :: rest.filter (fun q => q.2 ≠ 0) := by
        rw [List.filter_cons]
        simp [hs]
      rw [keepListGo, if_neg hskip]
      rw [hfeq] at hpair ⊢
      have hbd : a + s ≤ total := hbound (a, s) (List.mem_cons_self _ _) hs
      rcases ih (a + s) (List.pairwise_cons.1 hpair).2
        (fun q hq hq2 => by
          have := (List.pairwise_cons.1 hpair).1 q
            (List.mem_filter.2 ⟨hq, by simpa using hq2⟩)
          exact this)
        (fun q hq => hbound q (List.mem_cons_of_mem _ hq)) hbd with
        ⟨⟨y, t, hgo⟩, hlast, ⟨hchain, hinner⟩, hgaps, hlen⟩
      have hca : cur ≤ a := hcur (a, s) (List.mem_cons_self _ _) hs
      refine ⟨⟨a, keepListGo total (a + s) rest, rfl⟩, ?_, ⟨?_, ?_⟩, ?_, ?_⟩
      · rw [List.getLast?_cons, hgo]
        rw [hgo] at hlast
        simpa using hlast
      · rw [hgo] at hchain ⊢
        refine List.chain'_cons.2 ⟨?_, hchain⟩
        simp
      · intro r hr
        rcases List.mem_cons.1 hr with rfl | hr
        · simpa using hca
        · exact hinner r hr
      · intro pr hpr
        rw [hgo] at hpr
        simp only [List.tail_cons] at hpr
        rw [List.zip_cons_cons] at hpr
        rcases List.mem_cons.1 hpr with rfl | hpr
        · simp only [List.map_cons]
          apply List.mem_cons_self
        · rw [← hgo] at hpr
          refine List.mem_cons_of_mem _ ?_
          have := hgaps pr (by rw [hgo]; simpa [hgo] using hpr)
          exact this
      · simp only [List.length_cons, hlen]

/-- **C10 (amended).**  For every `total_size` and every collected set of
removed functions whose nonzero-size address ranges are pairwise disjoint in
ascending address order and end within `total_size` (which overlapping
functions violate — see the counterexample), `get_keep_list` returns ranges
in ascending order whose first range starts at 0 and whose last range ends at
`total_size`; each gap between consecutive kept ranges is exactly the byte
interval `[address, address + size)` of some removed function with nonzero
size, and zero-size functions create no gap (the number of ranges is one more
than the number of nonzero-size functions). -/
theorem get_keep_list_ranges (collection_dynsym : List SymbolWrapper)
    (local_functions : List (Nat × Nat)) (total_size : Nat)
    (hpair : List.Pairwise (fun q1 q2 : Nat × Nat => q1.1 + q1.2 ≤ q2.1)
      ((get_function_addresses collection_dynsym local_functions).filter
        (fun q => q.2 ≠ 0)))
    (hbound : ∀ q ∈ get_function_addresses collection_dynsym local_functions,
      q.2 ≠ 0 → q.1 + q.2 ≤ total_size) :
    (∃ y t, get_keep_list collection_dynsym local_functions total_size =
      [0, y] :: t) ∧
    ((get_keep_list collection_dynsym local_functions total_size).getLast?.getD
      []).getD 1 0 = total_size ∧
    keepListAscending (get_keep_list collection_dynsym local_functions total_size) ∧
    (∀ pr ∈ (get_keep_list collection_dynsym local_functions total_size).zip
        (get_keep_list collection_dynsym local_functions total_size).tail,
      (pr.1.getD 1 0, pr.2.getD 0 0) ∈
        ((get_function_addresses collection_dynsym local_functions).filter
          (fun q => q.2 ≠ 0)).map (fun q => (q.1, q.1 + q.2))) ∧
    (get_keep_list collection_dynsym local_functions total_size).length =
      ((get_function_addresses collection_dynsym local_functions).filter
        (fun q => q.2 ≠ 0)).length + 1 :=
  keepListGo_spec total_size
    (get_function_addresses collection_dynsym local_functions) 0 hpair
    (fun _ _ _ => Nat.zero_le _) hbound (Nat.zero_le _)

/-- Witness for C10 (amended): functions `(10, 4)`, `(20, 6)` and a zero-size
function `(15, 0)`; keep ranges `[0,10], [14,20], [26,100]`. -/
theorem get_keep_list_ranges_witness :
    List.Pairwise (fun q1 q2 : Nat × Nat => q1.1 + q1.2 ≤ q2.1)
      ((get_function_addresses [⟨"f", 0, 0, 10, 4, 0⟩, ⟨"g", 1, 0, 20, 6, 0⟩]
        [(15, 0)]).filter (fun q => q.2 ≠ 0)) ∧
    ((∃ y t, get_keep_list [⟨"f", 0, 0, 10, 4, 0⟩, ⟨"g", 1, 0, 20, 6, 0⟩]
        [(15, 0)] 100 = [0, y] :: t) ∧
    ((get_keep_list [⟨"f", 0, 0, 10, 4, 0⟩, ⟨"g", 1, 0, 20, 6, 0⟩]
        [(15, 0)] 100).getLast?.getD []).getD 1 0 = 100 ∧
    keepListAscending (get_keep_list [⟨"f", 0, 0, 10, 4, 0⟩, ⟨"g", 1, 0, 20, 6, 0⟩]
        [(15, 0)] 100) ∧
    (∀ pr ∈ (get_keep_list [⟨"f", 0, 0, 10, 4, 0⟩, ⟨"g", 1, 0, 20, 6, 0⟩]
          [(15, 0)] 100).zip
        (get_keep_list [⟨"f", 0, 0, 10, 4, 0⟩, ⟨"g", 1, 0, 20, 6, 0⟩]
          [(15, 0)] 100).tail,
      (pr.1.getD 1 0, pr.2.getD 0 0) ∈
        ((get_function_addresses [⟨"f", 0, 0, 10, 4, 0⟩, ⟨"g", 1, 0, 20, 6, 0⟩]
          [(15, 0)]).filter (fun q => q.2 ≠ 0)).map (fun q => (q.1, q.1 + q.2))) ∧
    (get_keep_list [⟨"f", 0, 0, 10, 4, 0⟩, ⟨"g", 1, 0, 20, 6, 0⟩]
        [(15, 0)] 100).length =
      ((get_function_addresses [⟨"f", 0, 0, 10, 4, 0⟩, ⟨"g", 1, 0, 20, 6, 0⟩]
        [(15, 0)]).filter (fun q => q.2 ≠ 0)).length + 1) :=
  ⟨by decide,
    get_keep_list_ranges [⟨"f", 0, 0, 10, 4, 0⟩, ⟨"g", 1, 0, 20, 6, 0⟩]
      [(15, 0)] 100 (by decide) (by decide)⟩
